import Mathlib

/-!
Verification development for the CodeShield TrustGate verification engine
(`src/codeshield/trustgate/engine/`): a shallow embedding in Lean 4 of the
parsing layer, the Meta-AST normalizer, the program-graph builders, the rule
engine and the execution orchestrator, together with theorems about the
engine's documented properties.

Modelling conventions:
* Concrete tree-sitter syntax trees are external inputs (the tree-sitter
  library is not part of the repository); they are modelled by the `TSNode`
  inductive.  Each node carries its own source text (the Python code slices
  `source[start_byte:end_byte]`); line/column bookkeeping follows
  tree-sitter's 0-based `start_point`/`end_point` rows and columns.
* Python string operations (`split`, `strip`, `endswith`, `in`, `lower`,
  slicing) are re-implemented over `List Char` so that all definitions are
  executable by the kernel.  Python's `strip`/`lower` act on full Unicode;
  the models below cover the ASCII range, which is all that the engine's
  fixed keyword tables use.
* Exceptions raised by external code (tree-sitter parse failure) and by the
  graph builders / rules (caught by `try/except` in the orchestrator) are
  modelled by explicit failure oracles passed to `verify`.
* The in-memory result cache (a Python dict keyed by content hash, FIFO
  eviction) is modelled by an insertion-ordered association list threaded
  through `verify`; the SHA-256 content hash is an external function and is
  passed in as an oracle.
* `MetaNode.trust_level` and `MetaNode.extra` are never read by any engine
  code path (the spec notes trust levels are "currently advisory, not yet
  consumed by rules"), and `_ts_node` is a non-owning back-reference used
  only for debugging; these fields are omitted from the embedding.
-/

namespace CodeShield

/-! ## Python-style string primitives over `List Char` -/

/-- Characters stripped by Python's default `str.strip()` (ASCII range). -/
def isPySpace (c : Char) : Bool :=
  c = ' ' || c = '\t' || c = '\n' || c = '\r' || c = '\x0b' || c = '\x0c'

/-- Python `str.strip()` (ASCII whitespace). -/
def pyStrip (s : String) : String :=
  String.mk (((s.toList.dropWhile isPySpace).reverse.dropWhile isPySpace).reverse)

/-- Python `str.lower()` (ASCII case folding, which covers every string the
engine compares case-insensitively). -/
def pyLower (s : String) : String :=
  String.mk (s.toList.map Char.toLower)

/-- Python slicing `s[:n]`. -/
def pyTake (s : String) (n : Nat) : String :=
  String.mk (s.toList.take n)

/-- Python `s.endswith(suff)`. -/
def pyEndsWith (s suff : String) : Bool :=
  suff.toList.isSuffixOf s.toList

/-- Python `s.startswith(p)`. -/
def pyStartsWith (s p : String) : Bool :=
  p.toList.isPrefixOf s.toList

/-- Helper for Python's substring test `sub in hay`. -/
def hasSubAux (needle : List Char) : List Char → Bool
  | [] => needle.isEmpty
  | c :: rest => needle.isPrefixOf (c :: rest) || hasSubAux needle rest

/-- Python `sub in hay` for strings. -/
def pyContains (hay sub : String) : Bool :=
  hasSubAux sub.toList hay.toList

/-- Fuel-driven worker for `pySplit`; the fuel (initially `|s| + 1`) bounds
the number of characters consumed, so the recursion is structural. -/
def pySplitAux (sep : List Char) : Nat → List Char → List Char → List (List Char)
  | 0, acc, rest => [acc.reverse ++ rest]
  | _ + 1, acc, [] => [acc.reverse]
  | fuel + 1, acc, c :: rest =>
    if sep.isPrefixOf (c :: rest) then
      acc.reverse :: pySplitAux sep fuel [] (List.drop sep.length (c :: rest))
    else
      pySplitAux sep fuel (c :: acc) rest

/-- Python `s.split(sep)` for a non-empty separator (the only form the
engine uses). -/
def pySplit (s sep : String) : List String :=
  (pySplitAux sep.toList (s.toList.length + 1) [] s.toList).map String.mk

/-- Last element of a split, Python's `split(...)[-1]`; `pySplit` never
returns an empty list, so the default is never used. -/
def lastOf (l : List String) : String := l.getLastD ""

/-- First element of a split, Python's `split(...)[0]`. -/
def headOf (l : List String) : String := l.headD ""

/-- Python truthiness of an optional string (`None` and `""` are falsy). -/
def truthy : Option String → Bool
  | none => false
  | some s => !s.isEmpty

/-- Python `a or b` for an optional string `a` with fallback `b`. -/
def orElse (a : Option String) (b : String) : String :=
  match a with
  | some s => if s.isEmpty then b else s
  | none => b

/-! ## Parsing layer (`engine/parser.py`)

Tree-sitter itself is an external library; `TSNode` models the concrete
syntax tree it hands back: node type string, source text of the node's
span, 0-based start/end rows and columns, the `is_missing` marker, the
tree-sitter field name under which the node is attached to its parent
(backing `child_by_field_name`), and the child list. -/

inductive TSNode where
  | mk (ttype : String) (text : String)
      (startRow startCol endRow endCol : Nat)
      (missing : Bool) (fieldTag : Option String)
      (children : List TSNode)

def TSNode.ttype : TSNode → String
  | .mk t _ _ _ _ _ _ _ _ => t

def TSNode.text : TSNode → String
  | .mk _ tx _ _ _ _ _ _ _ => tx

def TSNode.fieldTag : TSNode → Option String
  | .mk _ _ _ _ _ _ _ f _ => f

def TSNode.children : TSNode → List TSNode
  | .mk _ _ _ _ _ _ _ _ cs => cs

/-- `Lang` enumeration from `parser.py`. -/
inductive Lang where
  | python
  | javascript
deriving DecidableEq, Repr

/-- The `.value` of the `Lang` enum (it is a `str`-valued enum). -/
def Lang.value : Lang → String
  | .python => "python"
  | .javascript => "javascript"

/-- `_EXT_MAP` from `parser.py`, in insertion order. -/
def EXT_MAP : List (String × Lang) :=
  [(".py", .python), (".pyw", .python), (".pyi", .python),
   (".js", .javascript), (".mjs", .javascript), (".cjs", .javascript),
   (".jsx", .javascript)]

/-- `detect_language`: first extension (in `_EXT_MAP` insertion order) that
the filename ends with. -/
def detect_language (filename : String) : Option Lang :=
  (EXT_MAP.find? (fun p => pyEndsWith filename p.1)).map (·.2)

-- `_tree_has_errors`: recursive walk looking for ERROR or missing nodes.
mutual
def treeHasErrors : TSNode → Bool
  | .mk t _ _ _ _ _ m _ cs => t == "ERROR" || m || treeHasErrorsList cs
def treeHasErrorsList : List TSNode → Bool
  | [] => false
  | c :: cs => treeHasErrors c || treeHasErrorsList cs
end

/-- `ParseResult` from `parser.py` (the raw `source` bytes are carried by
the per-node `text` fields of the tree). -/
structure ParseResult where
  root : TSNode
  language : Lang
  hasErrors : Bool

/-- The tail of `parse_source`: wrap a tree produced by the external
tree-sitter parser, computing `has_errors` by the recursive walk. -/
def mkParseResult (root : TSNode) (language : Lang) : ParseResult :=
  { root := root, language := language, hasErrors := treeHasErrors root }

/-! ## Meta-AST normalizer (`engine/meta_ast.py`) -/

/-- `NodeKind` — the closed set of normalised node kinds. -/
inductive NodeKind where
  | module
  | functionDef
  | classDef
  | call
  | assignment
  | loop
  | conditional
  | importStmt
  | returnStmt
  | variableRef
  | literal
  | binaryOp
  | parameter
  | block
  | attributeRef
  | tryExcept
  | raiseStmt
  | unknown
deriving DecidableEq, Repr

/-- The `.value` strings of the `NodeKind` enum. -/
def NodeKind.value : NodeKind → String
  | .module => "MODULE"
  | .functionDef => "FUNCTION"
  | .classDef => "CLASS"
  | .call => "CALL"
  | .assignment => "ASSIGNMENT"
  | .loop => "LOOP"
  | .conditional => "CONDITIONAL"
  | .importStmt => "IMPORT"
  | .returnStmt => "RETURN"
  | .variableRef => "VARIABLE"
  | .literal => "LITERAL"
  | .binaryOp => "BINARY_OP"
  | .parameter => "PARAMETER"
  | .block => "BLOCK"
  | .attributeRef => "ATTRIBUTE"
  | .tryExcept => "TRY_EXCEPT"
  | .raiseStmt => "RAISE"
  | .unknown => "UNKNOWN"

/-- `MetaNode` — language-agnostic AST node (see the header for the three
omitted advisory fields). -/
inductive MetaNode where
  | mk (kind : NodeKind) (name : Option String) (text : String)
      (line endLine column : Nat) (children : List MetaNode)
      (scope : Option String) (isAsync : Bool) (exceptionPoint : Bool)

def MetaNode.kind : MetaNode → NodeKind
  | .mk k _ _ _ _ _ _ _ _ _ => k

def MetaNode.name : MetaNode → Option String
  | .mk _ nm _ _ _ _ _ _ _ _ => nm

def MetaNode.text : MetaNode → String
  | .mk _ _ tx _ _ _ _ _ _ _ => tx

def MetaNode.line : MetaNode → Nat
  | .mk _ _ _ ln _ _ _ _ _ _ => ln

def MetaNode.endLine : MetaNode → Nat
  | .mk _ _ _ _ el _ _ _ _ _ => el

def MetaNode.column : MetaNode → Nat
  | .mk _ _ _ _ _ col _ _ _ _ => col

def MetaNode.children : MetaNode → List MetaNode
  | .mk _ _ _ _ _ _ cs _ _ _ => cs

def MetaNode.scope : MetaNode → Option String
  | .mk _ _ _ _ _ _ _ sc _ _ => sc

-- `MetaNode.find_all`: pre-order collection of all nodes of a kind
-- (the node itself included).
mutual
def MetaNode.findAll : MetaNode → NodeKind → List MetaNode
  | n@(.mk k _ _ _ _ _ cs _ _ _), target =>
    (if k = target then [n] else []) ++ findAllList cs target
def findAllList : List MetaNode → NodeKind → List MetaNode
  | [], _ => []
  | c :: cs, target => MetaNode.findAll c target ++ findAllList cs target
end

/-- `MetaAST` — root container (the redundant copy of the raw source
string is not consulted by any graph builder or rule and is omitted). -/
structure MetaAST where
  root : MetaNode
  language : String
  hasErrors : Bool

def MetaAST.allCalls (a : MetaAST) : List MetaNode := a.root.findAll .call

def MetaAST.allFunctions (a : MetaAST) : List MetaNode := a.root.findAll .functionDef

def MetaAST.allImports (a : MetaAST) : List MetaNode := a.root.findAll .importStmt

/-- `_PYTHON_MAP`: tree-sitter node type → `NodeKind`. -/
def PYTHON_MAP : List (String × NodeKind) :=
  [("module", .module),
   ("function_definition", .functionDef),
   ("async_function_definition", .functionDef),
   ("class_definition", .classDef),
   ("call", .call),
   ("assignment", .assignment),
   ("augmented_assignment", .assignment),
   ("for_statement", .loop),
   ("while_statement", .loop),
   ("if_statement", .conditional),
   ("elif_clause", .conditional),
   ("else_clause", .conditional),
   ("import_statement", .importStmt),
   ("import_from_statement", .importStmt),
   ("return_statement", .returnStmt),
   ("identifier", .variableRef),
   ("string", .literal),
   ("integer", .literal),
   ("float", .literal),
   ("true", .literal),
   ("false", .literal),
   ("none", .literal),
   ("binary_operator", .binaryOp),
   ("comparison_operator", .binaryOp),
   ("boolean_operator", .binaryOp),
   ("parameters", .parameter),
   ("block", .block),
   ("attribute", .attributeRef),
   ("try_statement", .tryExcept),
   ("raise_statement", .raiseStmt)]

/-- `_JAVASCRIPT_MAP`: tree-sitter node type → `NodeKind`. -/
def JAVASCRIPT_MAP : List (String × NodeKind) :=
  [("program", .module),
   ("function_declaration", .functionDef),
   ("arrow_function", .functionDef),
   ("method_definition", .functionDef),
   ("class_declaration", .classDef),
   ("call_expression", .call),
   ("assignment_expression", .assignment),
   ("variable_declaration", .assignment),
   ("lexical_declaration", .assignment),
   ("variable_declarator", .assignment),
   ("augmented_assignment_expression", .assignment),
   ("for_statement", .loop),
   ("for_in_statement", .loop),
   ("while_statement", .loop),
   ("do_statement", .loop),
   ("if_statement", .conditional),
   ("else_clause", .conditional),
   ("import_statement", .importStmt),
   ("return_statement", .returnStmt),
   ("identifier", .variableRef),
   ("string", .literal),
   ("template_string", .literal),
   ("number", .literal),
   ("true", .literal),
   ("false", .literal),
   ("null", .literal),
   ("undefined", .literal),
   ("binary_expression", .binaryOp),
   ("formal_parameters", .parameter),
   ("statement_block", .block),
   ("member_expression", .attributeRef),
   ("try_statement", .tryExcept),
   ("throw_statement", .raiseStmt)]

/-- `_LANG_MAPS` lookup followed by `.get(node_type, UNKNOWN)`. -/
def kindOf (language : Lang) (t : String) : NodeKind :=
  let m := match language with
    | .python => PYTHON_MAP
    | .javascript => JAVASCRIPT_MAP
  ((m.find? (fun p => p.1 = t)).map (·.2)).getD .unknown

/-- Source text of `child_by_field_name(...)`: the first child attached
under the given tree-sitter field (`_extract_name` only ever reads the
found child's source span). -/
def childFieldText (cs : List TSNode) (f : String) : Option String :=
  (cs.find? (fun c => c.fieldTag = some f)).map (·.text)

/-- First child of type `identifier` (used to name Python function/class
definitions). -/
def firstIdentChild (cs : List TSNode) : Option String :=
  (cs.find? (fun c => c.ttype = "identifier")).map (·.text)

/-- `_extract_name`: kind-specific extraction of a human-readable name. -/
def extract_name (n : TSNode) (language : Lang) : Option String :=
  let t := n.ttype
  let fallback : Option String :=
    if t = "identifier" || t = "string" || t = "integer" || t = "float"
        || t = "number" then
      some n.text
    else
      none
  match language with
  | .python =>
    if t = "function_definition" || t = "async_function_definition"
        || t = "class_definition" then
      match firstIdentChild n.children with
      | some s => some s
      | none => fallback
    else if t = "call" then
      match childFieldText n.children "function" with
      | some s => some s
      | none => fallback
    else if t = "import_statement" || t = "import_from_statement" then
      some (pyStrip n.text)
    else fallback
  | .javascript =>
    if t = "function_declaration" || t = "class_declaration" then
      match childFieldText n.children "name" with
      | some s => some s
      | none => fallback
    else if t = "call_expression" then
      match childFieldText n.children "function" with
      | some s => some s
      | none => fallback
    else fallback

/-- Structural punctuation node types pruned during normalisation. -/
def STRUCTURAL_TYPES : List String :=
  ["(", ")", "\x7b", "\x7d", "[", "]", ",", ":", ";", "comment"]

-- `_normalise_node` / its recursion over the child list.  The child walk
-- skips structural punctuation; scope is extended at named function/class
-- boundaries; text is truncated to 200 characters plus an ellipsis.
mutual
def normaliseNode : TSNode → Lang → String → MetaNode
  | n@(.mk t tx sr sc er _ec _m _f cs), language, scope =>
    let kind := kindOf language t
    let name := extract_name n language
    let isAsync := pyStartsWith t "async_" || pyStartsWith t "await"
    let excPoint := t = "try_statement" || t = "raise_statement"
        || t = "throw_statement"
    let childScope :=
      if (kind = .functionDef || kind = .classDef) && truthy name then
        scope ++ "." ++ name.getD ""
      else scope
    MetaNode.mk kind name
      (if tx.length ≤ 200 then tx else pyTake tx 200 ++ "…")
      (sr + 1) (er + 1) sc
      (normaliseChildren cs language childScope)
      (some scope) isAsync excPoint
def normaliseChildren : List TSNode → Lang → String → List MetaNode
  | [], _, _ => []
  | c :: cs, language, scope =>
    if c.ttype ∈ STRUCTURAL_TYPES then
      normaliseChildren cs language scope
    else
      normaliseNode c language scope :: normaliseChildren cs language scope
end

/-- `normalise`: `ParseResult → MetaAST`, starting in scope `<module>`. -/
def normalise (pr : ParseResult) : MetaAST :=
  { root := normaliseNode pr.root pr.language "<module>"
    language := pr.language.value
    hasErrors := pr.hasErrors }

/-! ## Program graphs (`engine/graphs.py`) -/

/-- `GraphNode`: a node in any program graph. -/
structure GraphNode where
  id : Nat
  label : String
  meta : Option MetaNode
  line : Nat

/-- `GraphEdge`: directed edge (the free-form `extra` dict is always empty
in the engine and is omitted). -/
structure GraphEdge where
  src : Nat
  dst : Nat
  label : String

/-- `ProgramGraph`: generic directed graph.  The Python `nodes` dict
(int id → GraphNode, insertion-ordered, ids assigned monotonically) is an
association list. -/
structure ProgramGraph where
  kind : String
  nodes : List (Nat × GraphNode)
  edges : List GraphEdge
  entry : Option Nat
  exit : Option Nat
  nextId : Nat

/-- `ProgramGraph.add_node`: allocate the next id and append. -/
def ProgramGraph.addNode (g : ProgramGraph) (label : String)
    (meta : Option MetaNode) (line : Nat) : GraphNode × ProgramGraph :=
  let n : GraphNode := ⟨g.nextId, label, meta, line⟩
  (n, { g with nodes := g.nodes ++ [(g.nextId, n)], nextId := g.nextId + 1 })

/-- `ProgramGraph.add_edge` (default empty label, as in the source). -/
def ProgramGraph.addEdge (g : ProgramGraph) (src dst : Nat) (label : String) :
    ProgramGraph :=
  { g with edges := g.edges ++ [⟨src, dst, label⟩] }

/-- Dictionary lookup `self.nodes.get(nid)`. -/
def ProgramGraph.getNode (g : ProgramGraph) (nid : Nat) : Option GraphNode :=
  (g.nodes.find? (fun p => decide (p.1 = nid))).map (·.2)

/-- `ProgramGraph.successors`. -/
def ProgramGraph.successors (g : ProgramGraph) (nid : Nat) : List Nat :=
  (g.edges.filter (fun e => decide (e.src = nid))).map (·.dst)

/-- One `add_edge(pid, dst)` per predecessor, in list order (the
`for pid in prev_ids` loops of `_cfg_visit`). -/
def addEdgesFrom (g : ProgramGraph) (prevs : List Nat) (dst : Nat) :
    ProgramGraph :=
  prevs.foldl (fun g p => g.addEdge p dst "") g

/-- Fuel-driven worker for `reachable_from`'s BFS loop; the fuel bounds the
number of queue pops, and `ProgramGraph.reachableFrom` supplies enough fuel
for the loop to run to completion (each node is expanded at most once and
each expansion enqueues at most `|edges|` ids). -/
def reachAux (g : ProgramGraph) : Nat → List Nat → List Nat → List Nat
  | 0, _, visited => visited
  | _ + 1, [], visited => visited
  | fuel + 1, c :: queue, visited =>
    if c ∈ visited then reachAux g fuel queue visited
    else reachAux g fuel (queue ++ g.successors c) (visited ++ [c])

/-- `ProgramGraph.reachable_from`: BFS reachability (the Python version
returns a set; here the visited list, whose membership is the only thing
consumers query). -/
def ProgramGraph.reachableFrom (g : ProgramGraph) (start : Nat) : List Nat :=
  reachAux g ((g.edges.length + 1) * (g.edges.length + 1) + g.nodes.length + 2)
    [start] []

/-- `_STATEMENT_KINDS`. -/
def STATEMENT_KINDS : List NodeKind :=
  [.assignment, .call, .returnStmt, .importStmt, .raiseStmt]

/-- Number of BLOCK children (the `len([c for c in node.children if
c.kind == BLOCK])` test of the conditional case). -/
def countBlocks (cs : List MetaNode) : Nat :=
  (cs.filter (fun c => decide (c.kind = .block))).length

/-- Back-edges from every body exit to the loop header. -/
def addBackEdges (g : ProgramGraph) (exits : List Nat) (hdr : Nat) :
    ProgramGraph :=
  exits.foldl (fun g be => g.addEdge be hdr "back") g

-- `_cfg_visit` (with the helpers its loops correspond to):
-- `cfgVisitSeq` is the sequential child walk (default case and
-- `_cfg_visit_block`), `cfgBranches` the conditional's per-BLOCK branch
-- loop, `cfgBlocksFold` the loop/function body fold over BLOCK children.
mutual
def cfgVisit : MetaNode → ProgramGraph → List Nat → List Nat × ProgramGraph
  | n@(.mk k nm tx ln _el _col cs _sc _ia _ep), cfg, prev =>
    if k ∈ STATEMENT_KINDS then
      let r := cfg.addNode (k.value ++ ": " ++ orElse nm (pyTake tx 40)) (some n) ln
      ([r.1.id], addEdgesFrom r.2 prev r.1.id)
    else if k = .conditional then
      let r := cfg.addNode "IF" (some n) ln
      let cfg1 := addEdgesFrom r.2 prev r.1.id
      let br := cfgBranches cs cfg1 r.1.id
      (if countBlocks cs < 2 then br.1 ++ [r.1.id] else br.1, br.2)
    else if k = .loop then
      let r := cfg.addNode "LOOP" (some n) ln
      let cfg1 := addEdgesFrom r.2 prev r.1.id
      let body := cfgBlocksFold cs cfg1 [r.1.id]
      ([r.1.id], addBackEdges body.2 body.1 r.1.id)
    else if k = .functionDef then
      let r := cfg.addNode ("FUNC: " ++ orElse nm "?") (some n) ln
      let cfg1 := addEdgesFrom r.2 prev r.1.id
      cfgBlocksFold cs cfg1 [r.1.id]
    else
      cfgVisitSeq cs cfg prev
def cfgVisitSeq : List MetaNode → ProgramGraph → List Nat → List Nat × ProgramGraph
  | [], cfg, prev => (prev, cfg)
  | c :: cs, cfg, prev =>
    let r := cfgVisit c cfg prev
    cfgVisitSeq cs r.2 r.1
def cfgBranches : List MetaNode → ProgramGraph → Nat → List Nat × ProgramGraph
  | [], cfg, _ => ([], cfg)
  | (.mk k _ _ _ _ _ ccs _ _ _) :: cs, cfg, condId =>
    if k = .block then
      let r := cfgVisitSeq ccs cfg [condId]
      let rest := cfgBranches cs r.2 condId
      (r.1 ++ rest.1, rest.2)
    else
      cfgBranches cs cfg condId
def cfgBlocksFold : List MetaNode → ProgramGraph → List Nat → List Nat × ProgramGraph
  | [], cfg, current => (current, cfg)
  | (.mk k _ _ _ _ _ ccs _ _ _) :: cs, cfg, current =>
    if k = .block then
      let r := cfgVisitSeq ccs cfg current
      cfgBlocksFold cs r.2 r.1
    else
      cfgBlocksFold cs cfg current
end

/-- `build_cfg`: ENTRY, recursive visit, EXIT, then connect every leaf
(edge source that is never an edge destination, or ENTRY if that set is
empty) to EXIT.  The Python set difference is modelled by
`dedup.filter`; only membership of the set is observable downstream. -/
def build_cfg (meta : MetaAST) : ProgramGraph :=
  let g0 : ProgramGraph :=
    { kind := "cfg", nodes := [], edges := [], entry := none, exit := none
      nextId := 0 }
  let e := g0.addNode "ENTRY" none 0
  let g1 := { e.2 with entry := some e.1.id }
  let r := cfgVisit meta.root g1 [e.1.id]
  let x := r.2.addNode "EXIT" none 0
  let g2 := { x.2 with exit := some x.1.id }
  let allTargets := g2.edges.map (·.dst)
  let allSources := g2.edges.map (·.src)
  let leafIds := allSources.dedup.filter (fun s => decide (s ∉ allTargets))
  let leafIds := if leafIds.isEmpty then [e.1.id] else leafIds
  addEdgesFrom g2 leafIds x.1.id

/-- `DFGFact`: a def/use fact (`variable`, `kind`, `line`, `node_id`). -/
structure DFGFact where
  varName : String
  factKind : String
  line : Nat
  nodeId : Nat

/-- Add one fact node to the DFG and record the fact. -/
def addFact (st : ProgramGraph × List DFGFact) (label v fk : String)
    (ln : Nat) (m : MetaNode) : ProgramGraph × List DFGFact :=
  let r := st.1.addNode label (some m) ln
  (r.2, st.2 ++ [⟨v, fk, ln, r.1.id⟩])

/-- Parameter defs of a FUNCTION node (`for child in node.children: if
child.kind == PARAMETER: for param in child.children: ...`). -/
def dfgParamDefs (cs : List MetaNode) (st : ProgramGraph × List DFGFact) :
    ProgramGraph × List DFGFact :=
  cs.foldl (fun st child =>
    if child.kind = .parameter then
      child.children.foldl (fun st param =>
        if param.kind = .variableRef && truthy param.name then
          addFact st ("param:" ++ param.name.getD "") (param.name.getD "")
            "def" param.line param
        else st) st
    else st) st

-- `_dfg_collect` / `_dfg_collect_uses` and their child-list walks.
mutual
def dfgCollect : MetaNode → ProgramGraph × List DFGFact →
    ProgramGraph × List DFGFact
  | n@(.mk k nm _tx ln _el _col cs _sc _ia _ep), st =>
    let st :=
      if k = .assignment then
        match cs with
        | [] => st
        | lhs :: rest =>
          let st :=
            if lhs.kind = .variableRef && truthy lhs.name then
              addFact st ("def:" ++ lhs.name.getD "") (lhs.name.getD "")
                "def" ln n
            else st
          dfgUsesList rest st
      else if k = .variableRef && truthy nm then
        addFact st ("use:" ++ nm.getD "") (nm.getD "") "use" ln n
      else if k = .functionDef then
        dfgParamDefs cs st
      else st
    dfgCollectList cs st
def dfgCollectList : List MetaNode → ProgramGraph × List DFGFact →
    ProgramGraph × List DFGFact
  | [], st => st
  | c :: cs, st => dfgCollectList cs (dfgCollect c st)
def dfgUses : MetaNode → ProgramGraph × List DFGFact →
    ProgramGraph × List DFGFact
  | n@(.mk k nm _tx ln _el _col cs _sc _ia _ep), st =>
    let st :=
      if k = .variableRef && truthy nm then
        addFact st ("use:" ++ nm.getD "") (nm.getD "") "use" ln n
      else st
    dfgUsesList cs st
def dfgUsesList : List MetaNode → ProgramGraph × List DFGFact →
    ProgramGraph × List DFGFact
  | [], st => st
  | c :: cs, st => dfgUsesList cs (dfgUses c st)
end

/-- `build_dfg`: collect facts, then connect every def of `v` to every use
of `v` at an equal-or-later line (the `defs` dict groups def facts per
variable in fact order, which the inner filter reproduces). -/
def build_dfg (meta : MetaAST) : ProgramGraph :=
  let st := dfgCollect meta.root
    (⟨"dfg", [], [], none, none, 0⟩, [])
  let facts := st.2
  facts.foldl (fun g f =>
    if f.factKind = "use" then
      (facts.filter (fun d =>
          decide (d.factKind = "def" ∧ d.varName = f.varName))).foldl
        (fun g d =>
          if d.line ≤ f.line then g.addEdge d.nodeId f.nodeId f.varName
          else g) g
    else g) st.1

/-- `_TAINT_SOURCES` (a Python set literal; only membership is used). -/
def TAINT_SOURCES : List String :=
  ["input", "raw_input", "os.environ", "os.getenv", "sys.argv",
   "request.args", "request.form", "request.json", "prompt", "readline",
   "req.body", "req.query", "req.params"]

/-- `_TAINT_SINKS` (the source lists `"eval"` under both the Python and
the JS comments; membership is unaffected). -/
def TAINT_SINKS : List String :=
  ["exec", "eval", "compile", "__import__", "os.system", "os.popen",
   "subprocess.call", "subprocess.run", "subprocess.Popen", "open",
   "cursor.execute", "db.execute", "child_process.exec",
   "child_process.spawn", "innerHTML"]

/-- The source/sink test of `build_taint_graph`: exact membership, or a
dotted-suffix match against the dotted entries of the table. -/
def matchesTaint (table : List String) (fname : String) : Bool :=
  table.contains fname ||
  table.any (fun s =>
    s.toList.contains '.' && pyEndsWith fname ("." ++ lastOf (pySplit s ".")))

/-- The node-collection loop of `build_taint_graph`: each CALL whose name
matches the source (resp. sink) table becomes a `SOURCE:`/`SINK:` node. -/
def collectTaint : List MetaNode → ProgramGraph → List GraphNode →
    List GraphNode → ProgramGraph × List GraphNode × List GraphNode
  | [], g, srcs, sks => (g, srcs, sks)
  | c :: cs, g, srcs, sks =>
    let fname := c.name.getD ""
    let p1 := if matchesTaint TAINT_SOURCES fname then
        let r := g.addNode ("SOURCE: " ++ fname) (some c) c.line
        (r.2, srcs ++ [r.1])
      else (g, srcs)
    let p2 := if matchesTaint TAINT_SINKS fname then
        let r := p1.1.addNode ("SINK: " ++ fname) (some c) c.line
        (r.2, sks ++ [r.1])
      else (p1.1, sks)
    collectTaint cs p2.1 p1.2 p2.2

/-- The edge guard of `build_taint_graph`: both endpoints carry a MetaNode,
source line ≤ sink line, and the two MetaNodes' scopes are equal. -/
def taintEdgeOk (s k : GraphNode) : Bool :=
  match s.meta, k.meta with
  | some msrc, some msnk =>
    decide (s.line ≤ k.line) && decide (msrc.scope = msnk.scope)
  | _, _ => false

/-- `build_taint_graph`. -/
def build_taint_graph (meta : MetaAST) : ProgramGraph :=
  let r := collectTaint meta.allCalls ⟨"tfg", [], [], none, none, 0⟩ [] []
  r.2.1.foldl (fun g s =>
    r.2.2.foldl (fun g k =>
      if taintEdgeOk s k then g.addEdge s.id k.id "taint_flow" else g) g) r.1

/-- Python dict assignment `d[key] = val` on a string-keyed association
list: overwrite in place if the key exists, else append. -/
def dictSet (l : List (String × GraphNode)) (key : String) (val : GraphNode) :
    List (String × GraphNode) :=
  if l.any (fun p => decide (p.1 = key)) then
    l.map (fun p => if p.1 = key then (key, val) else p)
  else l ++ [(key, val)]

/-- Python dict lookup. -/
def dictGet (l : List (String × GraphNode)) (key : String) : Option GraphNode :=
  (l.find? (fun p => decide (p.1 = key))).map (·.2)

/-- `build_call_graph`: one node per named function (later duplicates
overwrite the `func_nodes` dict entry), then a `calls` edge for every CALL
inside a function whose dotted-suffix-stripped name is a known function. -/
def build_call_graph (meta : MetaAST) : ProgramGraph :=
  let p1 := meta.allFunctions.foldl
    (fun (st : ProgramGraph × List (String × GraphNode)) fn =>
      if truthy fn.name then
        let r := st.1.addNode (fn.name.getD "") (some fn) fn.line
        (r.2, dictSet st.2 (fn.name.getD "") r.1)
      else st)
    (⟨"call_graph", [], [], none, none, 0⟩, [])
  meta.allFunctions.foldl (fun g fn =>
    if truthy fn.name then
      match dictGet p1.2 (fn.name.getD "") with
      | none => g
      | some caller =>
        (fn.findAll .call).foldl (fun g call =>
          let calleeName := call.name.getD ""
          let simple := if calleeName.toList.contains '.' then
              lastOf (pySplit calleeName ".")
            else calleeName
          match dictGet p1.2 simple with
          | some callee => g.addEdge caller.id callee.id "calls"
          | none => g) g
    else g) p1.1

/-! ## Rule engine (`engine/rules.py`) -/

/-- `Severity` enumeration. -/
inductive Severity where
  | error
  | warning
  | info
  | hint
deriving DecidableEq, Repr

/-- `Finding`: one diagnostic emitted by a rule. -/
structure Finding where
  rule_id : String
  message : String
  severity : Severity
  line : Nat := 0
  column : Nat := 0
  endLine : Nat := 0
  endColumn : Nat := 0
  fix_hint : Option String := none
  meta_node : Option MetaNode := none

/-- The four graphs handed to rules: the Python `dict[str, ProgramGraph]`
has exactly the keys `cfg`/`dfg`/`tfg`/`call_graph`, each absent when its
builder failed. -/
structure GraphsMap where
  cfg : Option ProgramGraph := none
  dfg : Option ProgramGraph := none
  tfg : Option ProgramGraph := none
  callGraph : Option ProgramGraph := none

/-- `Rule` (the `match` callable is `matchFn`; `match` is reserved). -/
structure Rule where
  id : String
  name : String
  severity : Severity
  matchFn : MetaAST → GraphsMap → List Finding
  languages : List String
  tags : List String
  enabled : Bool := true

/-- `RuleSet`: insertion-ordered rule collection. -/
structure RuleSet where
  rules : List Rule

/-- `RuleSet.enabled_rules`: keep a rule unless it is disabled, or it is
language-restricted, the requested language is non-empty, and the language
is not in the rule's list (the contrapositive of the two `continue`s). -/
def RuleSet.enabledRules (rs : RuleSet) (language : String) : List Rule :=
  rs.rules.filter (fun r =>
    r.enabled &&
      (r.languages.isEmpty || language.isEmpty || r.languages.contains language))

/-- How Python's f-string renders an optional string (`None` prints as
`"None"`). -/
def fmtOpt (o : Option String) : String := o.getD "None"

/-- `_find_calls_by_name`: CALL nodes whose name — or whose dotted suffix —
is in `names` (a call matching both ways is appended twice, as in the
source). -/
def findCallsByName (meta : MetaAST) (names : List String) : List MetaNode :=
  meta.allCalls.foldl (fun acc call =>
    let fname := call.name.getD ""
    let acc := if names.contains fname then acc ++ [call] else acc
    let short := if fname.toList.contains '.' then lastOf (pySplit fname ".")
      else ""
    if names.contains short then acc ++ [call] else acc) []

/-- The `dangerous` set of `_rule_shell_injection`. -/
def DANGEROUS_CALLS : List String :=
  ["exec", "eval", "compile", "os.system", "os.popen", "subprocess.call",
   "subprocess.run", "subprocess.Popen", "child_process.exec",
   "child_process.spawn"]

/-- `_rule_shell_injection`. -/
def ruleShellInjection (meta : MetaAST) (_g : GraphsMap) : List Finding :=
  (findCallsByName meta DANGEROUS_CALLS).map (fun call =>
    let fname := orElse call.name "?"
    { rule_id := "shell_injection"
      message := "Dangerous call to `" ++ fname
        ++ "` — potential code/command injection"
      severity := .error
      line := call.line
      column := call.column
      fix_hint := some ("Avoid `" ++ fname
        ++ "` or sanitise all inputs before passing them.")
      meta_node := some call })

/-- `_rule_taint_to_sink`: one finding per TFG edge whose endpoints
resolve. -/
def ruleTaintToSink (_meta : MetaAST) (g : GraphsMap) : List Finding :=
  match g.tfg with
  | none => []
  | some tfg =>
    tfg.edges.foldl (fun acc edge =>
      match tfg.getNode edge.src, tfg.getNode edge.dst with
      | some srcNode, some sinkNode =>
        acc ++ [{ rule_id := "taint_flow"
                  message := "Untrusted data from `" ++ srcNode.label
                    ++ "` (L" ++ toString srcNode.line
                    ++ ") reaches dangerous sink `" ++ sinkNode.label
                    ++ "` (L" ++ toString sinkNode.line ++ ")"
                  severity := .error
                  line := sinkNode.line
                  fix_hint := some
                    "Sanitise or validate the input before passing to the sink."
                  meta_node := sinkNode.meta }]
      | _, _ => acc) []

/-- The used-name set of `_rule_unused_import`: truthy VARIABLE names
together with the first dotted component of truthy CALL names (Python
builds two sets; only membership of the union is consumed). -/
def usedNames (meta : MetaAST) : List String :=
  ((meta.root.findAll .variableRef).filterMap (fun v =>
      if truthy v.name then some (v.name.getD "") else none)) ++
  (meta.allCalls.filterMap (fun c =>
      if truthy c.name then some (headOf (pySplit (c.name.getD "") "."))
      else none))

/-- The display name of an import (`imp.name or imp.text.strip()`). -/
def importDisplayName (imp : MetaNode) : String :=
  orElse imp.name (pyStrip imp.text)

/-- The simple-name computation of `_rule_unused_import`: last dotted
component, then the part after `" as "` (stripped), when present. -/
def simpleImportName (imp : MetaNode) : String :=
  let impName := importDisplayName imp
  let simple := if impName.toList.contains '.' then
      lastOf (pySplit impName ".")
    else impName
  if pyContains simple " as " then pyStrip (lastOf (pySplit simple " as "))
  else simple

/-- The finding emitted for one unused import. -/
def unusedImportFinding (imp : MetaNode) : Finding :=
  { rule_id := "unused_import"
    message := "Import `" ++ importDisplayName imp ++ "` is never used"
    severity := .warning
    line := imp.line
    fix_hint := some ("Remove the unused import `" ++ importDisplayName imp
      ++ "`.")
    meta_node := some imp }

/-- `_rule_unused_import`: one Warning per Import node whose simple name
is truthy and not among the used names. -/
def ruleUnusedImport (meta : MetaAST) (_g : GraphsMap) : List Finding :=
  (meta.root.findAll .importStmt).filterMap (fun imp =>
    if ¬ (simpleImportName imp).isEmpty = true ∧
        simpleImportName imp ∉ usedNames meta then
      some (unusedImportFinding imp)
    else none)

/-- Strip one leading `+`/`-` (as `int()`/`float()` accept). -/
def dropSign (l : List Char) : List Char :=
  match l with
  | c :: rest => if c = '+' || c = '-' then rest else l
  | [] => l

/-- Non-empty all-digit character run. -/
def allDigits (l : List Char) : Bool :=
  !l.isEmpty && l.all (·.isDigit)

/-- Success of Python `int(text)` on stripped text: optional sign then
digits.  (Underscore digit grouping, accepted by CPython, is not modelled;
no engine property depends on literal-type sniffing of such text.) -/
def pyIntOk (s : String) : Bool :=
  allDigits (dropSign s.toList)

/-- Split a character list on a separator character. -/
def splitOnChar (sep : Char) : List Char → List (List Char)
  | [] => [[]]
  | x :: xs =>
    match splitOnChar sep xs with
    | [] => [[]]
    | r :: rs => if x = sep then [] :: r :: rs else (x :: r) :: rs

/-- Mantissa shape accepted by Python `float()`: `digits`, `digits.`,
`digits.digits`, or `.digits`. -/
def mantissaOk (l : List Char) : Bool :=
  match splitOnChar '.' l with
  | [a] => allDigits a
  | [a, b] =>
    (allDigits a && (b.isEmpty || allDigits b)) || (a.isEmpty && allDigits b)
  | _ => false

/-- Success of Python `float(text)` on stripped text: signed mantissa with
optional exponent, or `inf`/`infinity`/`nan` (case-insensitive).
(Underscore grouping again not modelled.) -/
def pyFloatOk (s : String) : Bool :=
  let low := (dropSign s.toList).map Char.toLower
  if low = "inf".toList || low = "infinity".toList || low = "nan".toList then
    true
  else
    match splitOnChar 'e' low with
    | [m] => mantissaOk m
    | [m, ex] => mantissaOk m && allDigits (dropSign ex)
    | _ => false

/-- `_infer_literal_type`: literal-text sniffing in source order (string
quotes, bytes, bool, none, int, float). -/
def inferLiteralType (node : MetaNode) : Option String :=
  if node.kind ≠ .literal then none
  else
    let text := pyStrip node.text
    if text.isEmpty then none
    else if pyStartsWith text "'" || pyStartsWith text "\"" then some "str"
    else if pyStartsWith text "b'" || pyStartsWith text "b\"" then some "bytes"
    else if text = "True" || text = "False" || text = "true"
        || text = "false" then some "bool"
    else if text = "None" || text = "null" || text = "undefined" then
      some "none"
    else if pyIntOk text then some "int"
    else if pyFloatOk text then some "float"
    else none

/-- `_rule_type_mismatch`: boundary children of a BINARY_OP both literal,
different inferred tags, at least one being `str`. -/
def ruleTypeMismatch (meta : MetaAST) (_g : GraphsMap) : List Finding :=
  (meta.root.findAll .binaryOp).filterMap (fun op =>
    let children := op.children
    if children.length < 2 then none
    else
      match children.head?, children.getLast? with
      | some left, some right =>
        match inferLiteralType left, inferLiteralType right with
        | some lk, some rk =>
          if lk ≠ rk ∧ (lk = "str" ∨ rk = "str") then
            some { rule_id := "type_mismatch"
                   message := "Potential type error: mixing `" ++ lk
                     ++ "` and `" ++ rk ++ "` in arithmetic"
                   severity := .error
                   line := op.line
                   fix_hint := some
                     "Ensure both operands are the same type or use explicit conversion."
                   meta_node := some op }
          else none
        | _, _ => none
      | _, _ => none)

/-- `_rule_bare_except`: TRY_EXCEPT whose (first 200 chars of) text
contains a catch-all clause. -/
def ruleBareExcept (meta : MetaAST) (_g : GraphsMap) : List Finding :=
  (meta.root.findAll .tryExcept).filterMap (fun tn =>
    let text := pyTake tn.text 200
    if pyContains text "except:" || pyContains text "except Exception:" then
      some { rule_id := "bare_except"
             message :=
               "Bare `except` swallows all exceptions — catch specific types"
             severity := .warning
             line := tn.line
             fix_hint := some
               "Replace with `except SpecificError:` to avoid masking bugs."
             meta_node := some tn }
    else none)

/-- `SECRET_NAMES` of `_rule_hardcoded_secret`. -/
def SECRET_NAMES : List String :=
  ["password", "passwd", "secret", "api_key", "apikey", "token",
   "auth_token", "private_key", "secret_key"]

/-- `_rule_hardcoded_secret`: assignment whose LHS name contains a
secret-like substring and whose later children include a quoted string
literal (the `break` makes at most one finding per assignment). -/
def ruleHardcodedSecret (meta : MetaAST) (_g : GraphsMap) : List Finding :=
  (meta.root.findAll .assignment).filterMap (fun assign =>
    match assign.children with
    | [] => none
    | lhs :: rest =>
      let name := pyLower (lhs.name.getD "")
      if SECRET_NAMES.any (fun s => pyContains name s) then
        match rest.find? (fun child =>
            decide (child.kind = .literal) &&
              (pyStartsWith (pyStrip child.text) "'"
                || pyStartsWith (pyStrip child.text) "\"")) with
        | some _ =>
          some { rule_id := "hardcoded_secret"
                 message := "Hardcoded secret in variable `"
                   ++ fmtOpt lhs.name ++ "`"
                 severity := .error
                 line := assign.line
                 fix_hint := some
                   "Use environment variables or a secrets manager instead."
                 meta_node := some assign }
        | none => none
      else none)

/-- The finding emitted for one unreachable statement. -/
def mkUnreachableFinding (stmt : MetaNode) : Finding :=
  { rule_id := "unreachable_code"
    message := "Unreachable code after return/raise statement"
    severity := .warning
    line := stmt.line
    meta_node := some stmt }

-- `_check_unreachable_in_block` and its loops: for every BLOCK child,
-- flag each statement that follows a RETURN/RAISE in that block; then
-- recurse into every child.
mutual
def checkUnreachable : MetaNode → List Finding → List Finding
  | .mk _ _ _ _ _ _ cs _ _ _, findings => checkUnreachableList cs findings
def checkUnreachableList : List MetaNode → List Finding → List Finding
  | [], findings => findings
  | c@(.mk k _ _ _ _ _ ccs _ _ _) :: cs, findings =>
    let findings :=
      if k = .block then unreachableInBlock ccs false findings else findings
    checkUnreachableList cs (checkUnreachable c findings)
def unreachableInBlock : List MetaNode → Bool → List Finding → List Finding
  | [], _, findings => findings
  | stmt :: stmts, sawReturn, findings =>
    let findings :=
      if sawReturn then findings ++ [mkUnreachableFinding stmt] else findings
    unreachableInBlock stmts
      (sawReturn || stmt.kind = .returnStmt || stmt.kind = .raiseStmt) findings
end

/-- `_rule_unreachable_code`: run the block check from every function. -/
def ruleUnreachableCode (meta : MetaAST) (_g : GraphsMap) : List Finding :=
  meta.allFunctions.foldl (fun findings fn => checkUnreachable fn findings) []

/-- `_BUILTIN_RULES`, in registration order. -/
def BUILTIN_RULES : List Rule :=
  [{ id := "shell_injection", name := "Shell / Code Injection"
     severity := .error, matchFn := ruleShellInjection
     tags := ["security"], languages := [] },
   { id := "taint_flow", name := "Taint Source → Sink"
     severity := .error, matchFn := ruleTaintToSink
     tags := ["security"], languages := [] },
   { id := "unused_import", name := "Unused Import"
     severity := .warning, matchFn := ruleUnusedImport
     tags := ["quality"], languages := ["python"] },
   { id := "type_mismatch", name := "Type Mismatch in Arithmetic"
     severity := .error, matchFn := ruleTypeMismatch
     tags := ["correctness"], languages := [] },
   { id := "bare_except", name := "Bare Except Clause"
     severity := .warning, matchFn := ruleBareExcept
     tags := ["quality"], languages := ["python"] },
   { id := "hardcoded_secret", name := "Hardcoded Secret"
     severity := .error, matchFn := ruleHardcodedSecret
     tags := ["security"], languages := [] },
   { id := "unreachable_code", name := "Unreachable Code"
     severity := .warning, matchFn := ruleUnreachableCode
     tags := ["quality"], languages := [] }]

/-- `load_builtin_rules`. -/
def load_builtin_rules : RuleSet := ⟨BUILTIN_RULES⟩

/-! ## Execution orchestrator (`engine/executor.py`)

Scores are exact rationals: every deduction is a multiple of `1/100`, so
the exact score is always a two-decimal value and Python's
`round(score, 2)` recovers exactly that value from its float
approximation.  `elapsed_ms` (wall-clock time) is supplied by the caller's
oracle. -/

/-- `VerificationReport`. -/
structure VerificationReport where
  is_valid : Bool
  confidence_score : ℚ
  findings : List Finding
  errors : List Finding
  warnings : List Finding
  language : String
  parse_ok : Bool
  elapsed_ms : ℚ
  code_hash : String

/-- Per-finding confidence deduction of `_compute_confidence`. -/
def findingDeduction (f : Finding) : ℚ :=
  match f.severity with
  | .error => 15 / 100
  | .warning => 5 / 100
  | .info => 2 / 100
  | .hint => 0

/-- Rounding to two decimals (the identity on the exact scores the engine
produces; see the section comment). -/
def round2 (q : ℚ) : ℚ := (round (q * 100) : ℤ) / 100

/-- `_compute_confidence`: start at 1.0, subtract 0.3 on parse errors and
a per-finding deduction, then round to 2 decimals and clamp to [0, 1]. -/
def computeConfidence (findings : List Finding) (parseOk : Bool) : ℚ :=
  let score : ℚ := 1 - (if parseOk then 0 else 3 / 10)
  let score := score - (findings.map findingDeduction).sum
  max 0 (min 1 (round2 score))

/-- The module-level `_cache` dict: an insertion-ordered association
list from content hash to report. -/
abbrev Cache := List (String × VerificationReport)

/-- `_CACHE_MAX`. -/
def CACHE_MAX : Nat := 512

/-- Dict lookup `_cache[h]` / `h in _cache`. -/
def cacheGet (s : Cache) (h : String) : Option VerificationReport :=
  (s.find? (fun p => decide (p.1 = h))).map (·.2)

/-- Dict assignment `_cache[h] = report`: overwrite in place, else
append. -/
def cacheSet (s : Cache) (h : String) (r : VerificationReport) : Cache :=
  if s.any (fun p => decide (p.1 = h)) then
    s.map (fun p => if p.1 = h then (h, r) else p)
  else s ++ [(h, r)]

/-- `_maybe_cache`: FIFO-evict the oldest entry at capacity, then store. -/
def maybeCache (s : Cache) (h : String) (r : VerificationReport) : Cache :=
  let s := if CACHE_MAX ≤ s.length then s.drop 1 else s
  cacheSet s h r

/-- `_resolve_lang`: case-insensitive mapping with `Lang.PYTHON` as the
default for unrecognized strings. -/
def resolve_lang (language : String) : Lang :=
  let mapping : List (String × Lang) :=
    [("python", .python), ("py", .python),
     ("javascript", .javascript), ("js", .javascript)]
  ((mapping.find? (fun p => p.1 = pyLower language)).map (·.2)).getD .python

/-- The minimal `parse_error` finding of the total-parse-failure path. -/
def parseErrorFinding (language : String) : Finding :=
  { rule_id := "parse_error"
    message := "Failed to parse " ++ language ++ " code"
    severity := .error
    line := 1 }

/-- The `syntax_error` finding injected when the tree has error nodes. -/
def syntaxErrorFinding : Finding :=
  { rule_id := "syntax_error"
    message := "Code contains syntax errors"
    severity := .error
    line := 1 }

/-- External effects of one `verify` call, supplied by the caller:
the tree-sitter outcome (`.error` models a raised exception, i.e. total
parse failure), the SHA-256-based content hash `_code_hash`, whether each
graph builder raises (its `try/except` arm), whether the i-th enabled rule
raises (its per-rule `try/except`), and the measured wall-clock time. -/
structure VerifyOracle where
  parseOutcome : Except Unit TSNode
  hashFn : String → String → String
  cfgFails : Bool := false
  dfgFails : Bool := false
  tfgFails : Bool := false
  cgFails : Bool := false
  ruleFails : Nat → Bool := fun _ => false
  elapsedMs : ℚ := 0

/-- The rule loop of `verify`: run each enabled rule in order, skipping
(exactly) the ones whose `try/except` arm fires. -/
def runRules : List Rule → Nat → (Nat → Bool) → MetaAST → GraphsMap →
    List Finding → List Finding
  | [], _, _, _, _, acc => acc
  | r :: rs, i, fails, meta, graphs, acc =>
    let acc := if fails i then acc else acc ++ r.matchFn meta graphs
    runRules rs (i + 1) fails meta graphs acc

/-- The language-resolution step at the top of `verify`: filename-based
detection fires only when a (truthy) filename is given AND the passed
language equals the default `"python"`; a successful detection replaces
the language with the detected `Lang`'s value. -/
def resolveLanguageArg (language : String) (filename : Option String) :
    String :=
  if truthy filename && language = "python" then
    match detect_language (filename.getD "") with
    | some detected => detected.value
    | none => language
  else language

/-- The cache-miss body of `verify` (steps 1–9 after language resolution
and hash computation): total parse failure short-circuits to the minimal
invalid report; otherwise normalise, build the four graphs (each builder
individually skippable by its failure oracle), inject `syntax_error` on
parse degradation, run the enabled rules, partition and score. -/
def verifyCompute (_code : String) (language : String)
    (rulesArg : Option RuleSet) (o : VerifyOracle) (h : String) :
    VerificationReport :=
  match o.parseOutcome with
  | .error _ =>
    let f := parseErrorFinding language
    { is_valid := false, confidence_score := 0, findings := [f]
      errors := [f], warnings := [], language := language
      parse_ok := false, elapsed_ms := o.elapsedMs, code_hash := h }
  | .ok root =>
    let pr := mkParseResult root (resolve_lang language)
    let parseOk := !pr.hasErrors
    let metaAst := normalise pr
    let graphs : GraphsMap :=
      { cfg := if o.cfgFails then none else some (build_cfg metaAst)
        dfg := if o.dfgFails then none else some (build_dfg metaAst)
        tfg := if o.tfgFails then none else some (build_taint_graph metaAst)
        callGraph :=
          if o.cgFails then none else some (build_call_graph metaAst) }
    let ruleset := rulesArg.getD load_builtin_rules
    let base := if parseOk then [] else [syntaxErrorFinding]
    let allFindings :=
      runRules (ruleset.enabledRules language) 0 o.ruleFails metaAst graphs
        base
    let errors := allFindings.filter (fun f => decide (f.severity = .error))
    let warnings :=
      allFindings.filter (fun f => decide (f.severity = .warning))
    { is_valid := decide (errors.length = 0) && parseOk
      confidence_score := computeConfidence allFindings parseOk
      findings := allFindings, errors := errors, warnings := warnings
      language := language, parse_ok := parseOk
      elapsed_ms := o.elapsedMs, code_hash := h }

/-- `verify`: resolve the language, hash, consult the cache (lookup gated
by `use_cache`, but the store is not), and otherwise run `verifyCompute`
and cache its report.  Returns the report together with the updated
result cache (the Python module-level `_cache`, threaded explicitly). -/
def verify (code : String) (language : String) (filename : Option String)
    (rulesArg : Option RuleSet) (useCache : Bool) (o : VerifyOracle)
    (cache : Cache) : VerificationReport × Cache :=
  let language := resolveLanguageArg language filename
  let h := o.hashFn code language
  match (if useCache then cacheGet cache h else none) with
  | some r => (r, cache)
  | none =>
    let report := verifyCompute code language rulesArg o h
    (report, maybeCache cache h report)

/-! ## Specification-side predicates and concrete scenario inputs -/

/-- A well-formed `VerificationReport`: confidence in [0, 1], the
error/warning sub-lists are the severity partitions of the finding list,
and validity entails no errors and a clean parse. -/
def WellFormedReport (r : VerificationReport) : Prop :=
  0 ≤ r.confidence_score ∧ r.confidence_score ≤ 1 ∧
  r.errors = r.findings.filter (fun f => decide (f.severity = .error)) ∧
  r.warnings = r.findings.filter (fun f => decide (f.severity = .warning)) ∧
  (r.is_valid = true → r.errors = [] ∧ r.parse_ok = true)

/-- A cache state all of whose entries are well-formed reports (every
entry the running system ever stores is a `verify` output). -/
def CacheWF (s : Cache) : Prop := ∀ p ∈ s, WellFormedReport p.2

-- All nodes of a MetaNode tree (the node and every descendant).
mutual
def MetaNode.allNodes : MetaNode → List MetaNode
  | n@(.mk _ _ _ _ _ _ cs _ _ _) => n :: allNodesList cs
def allNodesList : List MetaNode → List MetaNode
  | [] => []
  | c :: cs => MetaNode.allNodes c ++ allNodesList cs
end

/-- Shorthand for a tree-sitter `identifier` leaf on one line. -/
def tsIdent (nm : String) (r c0 c1 : Nat) (f : Option String) : TSNode :=
  .mk "identifier" nm r c0 r c1 false f []

/-- The tree-sitter-python concrete syntax tree of Scenario B's input
`"data = input('Enter: ')\neval(data)"` (module → two expression
statements: an assignment whose right-hand side calls `input`, and a call
of `eval`). -/
def scenBTree : TSNode :=
  .mk "module" "data = input('Enter: ')\neval(data)" 0 0 1 10 false none
    [.mk "expression_statement" "data = input('Enter: ')" 0 0 0 23 false none
      [.mk "assignment" "data = input('Enter: ')" 0 0 0 23 false none
        [tsIdent "data" 0 0 4 (some "left"),
         .mk "=" "=" 0 5 0 6 false none [],
         .mk "call" "input('Enter: ')" 0 7 0 23 false (some "right")
           [tsIdent "input" 0 7 12 (some "function"),
            .mk "argument_list" "('Enter: ')" 0 12 0 23 false
              (some "arguments")
              [.mk "(" "(" 0 12 0 13 false none [],
               .mk "string" "'Enter: '" 0 13 0 22 false none
                 [.mk "string_start" "'" 0 13 0 14 false none [],
                  .mk "string_content" "Enter: " 0 14 0 21 false none [],
                  .mk "string_end" "'" 0 21 0 22 false none []],
               .mk ")" ")" 0 22 0 23 false none []]]]],
     .mk "expression_statement" "eval(data)" 1 0 1 10 false none
      [.mk "call" "eval(data)" 1 0 1 10 false none
        [tsIdent "eval" 1 0 4 (some "function"),
         .mk "argument_list" "(data)" 1 4 1 10 false (some "arguments")
           [.mk "(" "(" 1 4 1 5 false none [],
            tsIdent "data" 1 5 9 none,
            .mk ")" ")" 1 9 1 10 false none []]]]]

/-- The normalised Meta-AST of Scenario B. -/
def scenBAst : MetaAST := normalise (mkParseResult scenBTree .python)

/-- Oracle for the Scenario B run: tree-sitter returns `scenBTree`, no
builder or rule raises, and the content hash is irrelevant to the
scenario. -/
def scenBOracle : VerifyOracle :=
  { parseOutcome := .ok scenBTree, hashFn := fun _ _ => "h" }

/-- The Scenario B report. -/
def scenBReport : VerificationReport :=
  (verify "data = input('Enter: ')\neval(data)" "python" none none true
    scenBOracle []).1

/-- An oracle whose parse is an empty Python module (used where only the
language-resolution behaviour of `verify` is at stake). -/
def emptyModuleOracle : VerifyOracle :=
  { parseOutcome := .ok (.mk "module" "" 0 0 0 0 false none []),
    hashFn := fun _ _ => "h" }

/-- A hand-written Meta-AST with one import (`import os`) and one call,
exercising the unused-import rule on a concrete tree. -/
def w7Imp : MetaNode :=
  .mk .importStmt (some "import os") "import os" 1 1 0 []
    (some "<module>") false false

/-- The call node of the unused-import example (`os.path(x)`-style call
whose base name is `os`). -/
def w7Call : MetaNode :=
  .mk .call (some "os.path") "os.path(x)" 2 2 0 [] (some "<module>")
    false false

/-- Root of the unused-import example tree. -/
def w7Ast : MetaAST :=
  { root := .mk .module none "import os\nos.path(x)" 1 2 0 [w7Imp, w7Call]
      (some "<module>") false false
    language := "python", hasErrors := false }

/-- A 201-character identifier text. -/
def longText : String := String.mk (List.replicate 201 'a')

/-- A tree-sitter leaf whose source span is 201 characters long. -/
def longTSNode : TSNode :=
  .mk "identifier" longText 0 0 0 201 false none []

/-- Its normalisation (the whole tree is this single node). -/
def longMeta : MetaNode :=
  (normalise (mkParseResult longTSNode .python)).root

/-- The single taint edge of Scenario B's taint graph
(`input` at line 1 → `eval` at line 2). -/
def w5Edge : GraphEdge := ⟨0, 1, "taint_flow"⟩

/-- All node keys of a graph are below the next fresh id (holds for every
graph the builders produce; ids are assigned monotonically and never
reused). -/
def GoodIds (g : ProgramGraph) : Prop := ∀ p ∈ g.nodes, p.1 < g.nextId

/-- Pair invariant carried through the node-collection loop of
`build_taint_graph`: the graph's ids are good and every recorded source
(resp. sink) node is retrievable by its id and carries a
`SOURCE: `/`SINK: ` label. -/
def TaintCollectOk (g : ProgramGraph) (srcs sks : List GraphNode) : Prop :=
  GoodIds g ∧
  (∀ n ∈ srcs, g.getNode n.id = some n ∧ ∃ fn, n.label = "SOURCE: " ++ fn) ∧
  (∀ n ∈ sks, g.getNode n.id = some n ∧ ∃ fn, n.label = "SINK: " ++ fn)

/-- Graph invariant maintained by the `_cfg_visit` recursion, with the
ENTRY node at id 0: ids start above the entry's, every edge points at a
non-entry node (nothing ever targets ENTRY), and as soon as any edge
exists some edge leaves ENTRY. -/
def CfgP (g : ProgramGraph) : Prop :=
  1 ≤ g.nextId ∧ (∀ e ∈ g.edges, 1 ≤ e.dst) ∧
  (g.edges ≠ [] → ∃ e ∈ g.edges, e.src = 0)

/-- `CfgP` together with the frontier invariant: the frontier is never
empty, and before the first edge is laid down it is exactly `[ENTRY]`. -/
def CfgQ (g : ProgramGraph) (prev : List Nat) : Prop :=
  CfgP g ∧ prev ≠ [] ∧ (g.edges = [] → prev = [0])

/-! ## Theorems -/

theorem computeConfidence_nonneg (fs : List Finding) (p : Bool) :
    0 ≤ computeConfidence fs p :=
  le_max_left 0 _

theorem computeConfidence_le_one (fs : List Finding) (p : Bool) :
    computeConfidence fs p ≤ 1 :=
  max_le (by norm_num) (min_le_left 1 _)

theorem verifyCompute_wellFormed (code language : String)
    (rulesArg : Option RuleSet) (o : VerifyOracle) (h : String) :
    WellFormedReport (verifyCompute code language rulesArg o h) := by
  rcases ho : o.parseOutcome with e | root
  · unfold verifyCompute
    rw [ho]
    exact ⟨le_refl 0, by norm_num, rfl, rfl, fun hv => nomatch hv⟩
  · unfold verifyCompute
    rw [ho]
    refine ⟨computeConfidence_nonneg _ _, computeConfidence_le_one _ _,
      rfl, rfl, ?_⟩
    intro hv
    rcases Bool.and_eq_true _ _ |>.mp hv with ⟨h1, h2⟩
    refine ⟨?_, h2⟩
    exact List.length_eq_zero.mp (of_decide_eq_true h1)

theorem cacheGet_mem {s : Cache} {h : String} {r : VerificationReport}
    (hr : cacheGet s h = some r) : ∃ p ∈ s, p.2 = r := by
  unfold cacheGet at hr
  rcases hfind : s.find? (fun p => decide (p.1 = h)) with _ | p
  · rw [hfind] at hr
    exact nomatch hr
  · rw [hfind] at hr
    exact ⟨p, List.mem_of_find?_eq_some hfind, Option.some_injective _ hr⟩

theorem verify_wellFormed (code language : String) (filename : Option String)
    (rulesArg : Option RuleSet) (useCache : Bool) (o : VerifyOracle)
    (cache : Cache) (hc : CacheWF cache) :
    WellFormedReport
      (verify code language filename rulesArg useCache o cache).1 := by
  simp only [verify]
  split
  · next r heq =>
    rcases useCache with _ | _
    · simp at heq
    · simp only [if_pos rfl] at heq
      rcases cacheGet_mem heq with ⟨p, hp, hpr⟩
      simpa [hpr] using hc p hp
  · next heq =>
    exact verifyCompute_wellFormed code (resolveLanguageArg language filename)
      rulesArg o (o.hashFn code (resolveLanguageArg language filename))

/-- C1: for every input code string, language, filename, rule set, cache
mode, failure oracle (total parse failure, parse degradation, per-builder
failure, per-rule failure — the normalisation step is a total function
and cannot fail) and well-formed cache state, `verify` returns a
well-formed `VerificationReport`; in the embedding the function is total,
so no failure category escapes the call. -/
theorem claim_C1_verify_always_wellformed (code language : String)
    (filename : Option String) (rulesArg : Option RuleSet) (useCache : Bool)
    (o : VerifyOracle) (cache : Cache) (hc : CacheWF cache) :
    WellFormedReport
      (verify code language filename rulesArg useCache o cache).1 :=
  verify_wellFormed code language filename rulesArg useCache o cache hc

/-- Witness for C1 at a concrete call whose parse raises. -/
theorem claim_C1_witness :
    WellFormedReport
      (verify "def f(" "python" none none true
        { parseOutcome := .error (), hashFn := fun _ _ => "h" } []).1 :=
  claim_C1_verify_always_wellformed "def f(" "python" none none true
    { parseOutcome := .error (), hashFn := fun _ _ => "h" } []
    (by intro p hp; exact absurd hp (List.not_mem_nil p))

/-- C2: every report `verify` returns (under a well-formed cache state)
has `confidence_score ∈ [0, 1]` — the score is `computeConfidence`, which
starts at 1, subtracts 0.3 on parse errors and 0.15/0.05/0.02 per
Error/Warning/Info finding, rounds to two decimals and clamps — and
`is_valid` implies an empty error list and `parse_ok`. -/
theorem claim_C2_confidence_and_validity (code language : String)
    (filename : Option String) (rulesArg : Option RuleSet) (useCache : Bool)
    (o : VerifyOracle) (cache : Cache) (hc : CacheWF cache) :
    0 ≤ (verify code language filename rulesArg useCache o cache).1.confidence_score ∧
    (verify code language filename rulesArg useCache o cache).1.confidence_score ≤ 1 ∧
    ((verify code language filename rulesArg useCache o cache).1.is_valid = true →
      (verify code language filename rulesArg useCache o cache).1.errors = [] ∧
      (verify code language filename rulesArg useCache o cache).1.parse_ok = true) := by
  obtain ⟨h1, h2, _, _, h5⟩ :=
    verify_wellFormed code language filename rulesArg useCache o cache hc
  exact ⟨h1, h2, h5⟩

/-- Witness for C2 at the concrete Scenario B call. -/
theorem claim_C2_witness :
    0 ≤ (verify "data = input('Enter: ')\neval(data)" "python" none none true
        scenBOracle []).1.confidence_score ∧
    (verify "data = input('Enter: ')\neval(data)" "python" none none true
        scenBOracle []).1.confidence_score ≤ 1 ∧
    ((verify "data = input('Enter: ')\neval(data)" "python" none none true
        scenBOracle []).1.is_valid = true →
      (verify "data = input('Enter: ')\neval(data)" "python" none none true
        scenBOracle []).1.errors = [] ∧
      (verify "data = input('Enter: ')\neval(data)" "python" none none true
        scenBOracle []).1.parse_ok = true) :=
  claim_C2_confidence_and_validity "data = input('Enter: ')\neval(data)"
    "python" none none true scenBOracle []
    (by intro p hp; exact absurd hp (List.not_mem_nil p))

/-- C3: on Scenario B's input (parsed by tree-sitter-python as
`scenBTree`), the report's findings include a `shell_injection` finding
and a `taint_flow` finding, and the report is invalid. -/
theorem claim_C3_scenario_b :
    (∃ f ∈ scenBReport.findings, f.rule_id = "shell_injection") ∧
    (∃ f ∈ scenBReport.findings, f.rule_id = "taint_flow") ∧
    scenBReport.is_valid = false := by
  refine ⟨?_, ?_, rfl⟩ <;> decide

theorem cacheGet_cons_ne {p : String × VerificationReport} {l : Cache}
    {h : String} (hp : ¬ p.1 = h) : cacheGet (p :: l) h = cacheGet l h := by
  unfold cacheGet
  rw [List.find?_cons_of_neg _ (by simp [hp])]

theorem cacheGet_cacheSet_self (s : Cache) (h : String)
    (r : VerificationReport) : cacheGet (cacheSet s h r) h = some r := by
  induction s with
  | nil =>
    simp [cacheSet, cacheGet]
  | cons p t ih =>
    by_cases hp : p.1 = h
    · have hany : ((p :: t).any fun q => decide (q.1 = h)) = true := by
        simp [hp]
      rw [cacheSet, if_pos hany]
      show cacheGet ((if p.1 = h then (h, r) else p) :: t.map _) h = some r
      rw [if_pos hp]
      unfold cacheGet
      rw [List.find?_cons_of_pos _ (by simp)]
      rfl
    · by_cases hany : (t.any fun q => decide (q.1 = h)) = true
      · have hany' : ((p :: t).any fun q => decide (q.1 = h)) = true := by
          simp only [List.any_cons, hany, Bool.or_true]
        rw [cacheSet, if_pos hany']
        show cacheGet ((if p.1 = h then (h, r) else p) :: t.map _) h = some r
        rw [if_neg hp, cacheGet_cons_ne hp]
        have := ih
        rw [cacheSet, if_pos hany] at this
        exact this
      · have hany' : ¬ ((p :: t).any fun q => decide (q.1 = h)) = true := by
          simp only [List.any_cons, Bool.or_eq_true, decide_eq_true_eq]
          rintro (h1 | h2)
          · exact hp h1
          · exact hany (by simpa using h2)
        rw [cacheSet, if_neg hany']
        show cacheGet (p :: (t ++ [(h, r)])) h = some r
        rw [cacheGet_cons_ne hp]
        have := ih
        rw [cacheSet, if_neg (by simpa using hany)] at this
        exact this

theorem cacheGet_maybeCache_self (s : Cache) (h : String)
    (r : VerificationReport) : cacheGet (maybeCache s h r) h = some r := by
  unfold maybeCache
  exact cacheGet_cacheSet_self _ _ _

/-- C6: with caching enabled, a second `verify` call for the same code,
language and filename (under possibly different parse/builder/rule/timing
oracles sharing the deterministic content-hash function) returns a report
with the same `code_hash`, the same `findings` and the same
`confidence_score` as the first — it is the first report, replayed from
the cache. -/
theorem claim_C6_cache_idempotent (code language : String)
    (filename : Option String) (rulesArg : Option RuleSet)
    (o1 o2 : VerifyOracle) (cache : Cache)
    (hhash : o1.hashFn = o2.hashFn) :
    (verify code language filename rulesArg true o1 cache).1.code_hash =
      (verify code language filename rulesArg true o2
        (verify code language filename rulesArg true o1 cache).2).1.code_hash ∧
    (verify code language filename rulesArg true o1 cache).1.findings =
      (verify code language filename rulesArg true o2
        (verify code language filename rulesArg true o1 cache).2).1.findings ∧
    (verify code language filename rulesArg true o1 cache).1.confidence_score =
      (verify code language filename rulesArg true o2
        (verify code language filename rulesArg true o1 cache).2).1.confidence_score := by
  set s1 := verify code language filename rulesArg true o1 cache with hs1
  have key : cacheGet s1.2
      (o2.hashFn code (resolveLanguageArg language filename)) = some s1.1 := by
    rw [hs1, ← hhash]
    simp only [verify]
    split
    · next r heq =>
      simpa using heq
    · next heq =>
      exact cacheGet_maybeCache_self _ _ _
  have h2 : verify code language filename rulesArg true o2 s1.2 =
      (s1.1, s1.2) := by
    simp only [verify, if_true]
    rw [key]
  rw [h2]
  exact ⟨rfl, rfl, rfl⟩

/-- Witness for C6 at a concrete repeated call. -/
theorem claim_C6_witness :
    (verify "x = 1" "python" none none true emptyModuleOracle []).1.code_hash =
      (verify "x = 1" "python" none none true emptyModuleOracle
        (verify "x = 1" "python" none none true emptyModuleOracle []).2).1.code_hash ∧
    (verify "x = 1" "python" none none true emptyModuleOracle []).1.findings =
      (verify "x = 1" "python" none none true emptyModuleOracle
        (verify "x = 1" "python" none none true emptyModuleOracle []).2).1.findings ∧
    (verify "x = 1" "python" none none true emptyModuleOracle []).1.confidence_score =
      (verify "x = 1" "python" none none true emptyModuleOracle
        (verify "x = 1" "python" none none true emptyModuleOracle []).2).1.confidence_score :=
  claim_C6_cache_idempotent "x = 1" "python" none none
    emptyModuleOracle emptyModuleOracle [] rfl

theorem verifyCompute_language (code language : String)
    (rulesArg : Option RuleSet) (o : VerifyOracle) (h : String) :
    (verifyCompute code language rulesArg o h).language = language := by
  unfold verifyCompute
  rcases o.parseOutcome with _ | _ <;> rfl

theorem verify_miss_language (code language : String)
    (filename : Option String) (rulesArg : Option RuleSet) (useCache : Bool)
    (o : VerifyOracle) (cache : Cache)
    (hmiss : cacheGet cache
      (o.hashFn code (resolveLanguageArg language filename)) = none) :
    (verify code language filename rulesArg useCache o cache).1.language =
      resolveLanguageArg language filename := by
  simp only [verify]
  split
  · next r heq =>
    rcases useCache with _ | _
    · simp at heq
    · rw [if_pos rfl, hmiss] at heq
      exact nomatch heq
  · next heq =>
    exact verifyCompute_language code (resolveLanguageArg language filename)
      rulesArg o (o.hashFn code (resolveLanguageArg language filename))

/-- C8 counterexample: `verify(code, language="javascript",
filename="app.py")` — the filename's extension maps to Python, but the
analysis keeps JavaScript: the report's language is `"javascript"`, not
the detected `"python"`, because detection only fires when the passed
language is the default `"python"`. -/
theorem claim_C8_counterexample :
    detect_language "app.py" = some Lang.python ∧
    (verify "x = 1" "javascript" (some "app.py") none true
        emptyModuleOracle []).1.language = "javascript" ∧
    ¬ (verify "x = 1" "javascript" (some "app.py") none true
        emptyModuleOracle []).1.language = "python" := by
  refine ⟨rfl, rfl, ?_⟩
  intro hcon
  have hjs : (verify "x = 1" "javascript" (some "app.py") none true
      emptyModuleOracle []).1.language = "javascript" := rfl
  rw [hjs] at hcon
  exact absurd hcon (by decide)

/-- C8 (amended): filename-based detection overrides the language argument
only when that argument is the default `"python"`: for every code string,
non-empty filename whose detection succeeds, rule set, cache mode and
oracle, `verify(code, "python", filename)` analyzes (and reports) the
language detected from the filename. -/
theorem claim_C8_amended (code f : String) (l : Lang)
    (rulesArg : Option RuleSet) (useCache : Bool) (o : VerifyOracle)
    (cache : Cache) (hf : f ≠ "") (hdet : detect_language f = some l)
    (hmiss : cacheGet cache (o.hashFn code l.value) = none) :
    (verify code "python" (some f) rulesArg useCache o cache).1.language =
      l.value := by
  have hie : f.isEmpty = false := by
    cases hie : f.isEmpty
    · rfl
    · exact absurd ((String.isEmpty_iff f).mp hie) hf
  have hres : resolveLanguageArg "python" (some f) = l.value := by
    unfold resolveLanguageArg
    rw [if_pos (by simp [truthy, hie])]
    simp only [Option.getD_some]
    rw [hdet]
  rw [verify_miss_language code "python" (some f) rulesArg useCache o cache
    (by rw [hres]; exact hmiss), hres]

/-- Witness for C8 (amended): `verify(code, "python", filename="app.js")`
analyzes the code as JavaScript. -/
theorem claim_C8_amended_witness :
    (verify "x = 1" "python" (some "app.js") none true
        emptyModuleOracle []).1.language = "javascript" :=
  claim_C8_amended "x = 1" "app.js" .javascript none true emptyModuleOracle
    [] (by decide) rfl rfl

/-- C10: for every language string outside the recognized set (compared
case-insensitively), `_resolve_lang` falls back to Python — so the code is
analyzed with the Python grammar, with no failure and no error blamed on
the language — while the report's `language` field echoes the caller's
original string unchanged. -/
theorem claim_C10_unknown_language (code lang0 : String)
    (filename : Option String) (rulesArg : Option RuleSet) (useCache : Bool)
    (o : VerifyOracle) (cache : Cache)
    (h : pyLower lang0 ∉ ["python", "py", "javascript", "js"])
    (hmiss : cacheGet cache (o.hashFn code lang0) = none) :
    resolve_lang lang0 = Lang.python ∧
    (verify code lang0 filename rulesArg useCache o cache).1.language =
      lang0 := by
  have hne : lang0 ≠ "python" := by
    intro he
    subst he
    exact h (by decide)
  constructor
  · have hfind : (([("python", Lang.python), ("py", Lang.python),
        ("javascript", Lang.javascript), ("js", Lang.javascript)]).find?
          (fun p => decide (p.1 = pyLower lang0))) = none := by
      rw [List.find?_eq_none]
      intro a ha he
      apply h
      rw [← of_decide_eq_true he]
      simp only [List.mem_cons, List.not_mem_nil, or_false] at ha ⊢
      rcases ha with ha | ha | ha | ha <;> rw [ha] <;> simp
    simp only [resolve_lang]
    rw [hfind]
    rfl
  · have harg : resolveLanguageArg lang0 filename = lang0 := by
      unfold resolveLanguageArg
      rw [if_neg]
      intro hcond
      rcases Bool.and_eq_true _ _ |>.mp hcond with ⟨_, h2⟩
      exact hne (of_decide_eq_true h2)
    rw [verify_miss_language code lang0 filename rulesArg useCache o cache
      (by rw [harg]; exact hmiss), harg]

/-- Witness for C10 at `language = "ruby"`. -/
theorem claim_C10_witness :
    resolve_lang "ruby" = Lang.python ∧
    (verify "x = 1" "ruby" none none true emptyModuleOracle []).1.language =
      "ruby" :=
  claim_C10_unknown_language "x = 1" "ruby" none none true emptyModuleOracle
    [] (by decide) rfl

set_option maxRecDepth 4000 in
/-- C9 counterexample: a 201-character tree-sitter span normalises to a
stored `text` of exactly 201 characters (200 kept plus the appended
ellipsis), exceeding the claimed 200-character bound. -/
theorem claim_C9_counterexample :
    longMeta.text.length = 201 ∧ 200 < longMeta.text.length := by
  constructor <;> decide

theorem pyTake_length_le (s : String) (n : Nat) : (pyTake s n).length ≤ n := by
  show (s.toList.take n).length ≤ n
  rw [List.length_take]
  exact min_le_left _ _

mutual
theorem normaliseNode_text_le (ts : TSNode) (language : Lang) (scope : String) :
    ∀ m ∈ (normaliseNode ts language scope).allNodes, m.text.length ≤ 201 := by
  cases ts with
  | mk t tx sr sc er ec mi f cs =>
    intro m hm
    simp only [normaliseNode, MetaNode.allNodes] at hm
    rcases List.mem_cons.mp hm with hm | hm
    · subst hm
      show (if tx.length ≤ 200 then tx else pyTake tx 200 ++ "…").length ≤ 201
      by_cases htx : tx.length ≤ 200
      · rw [if_pos htx]
        omega
      · rw [if_neg htx]
        have h1 : (pyTake tx 200).length ≤ 200 := pyTake_length_le tx 200
        have h2 : (pyTake tx 200 ++ "…").length =
            (pyTake tx 200).length + ("…" : String).length :=
          String.length_append _ _
        rw [h2]
        have h3 : ("…" : String).length = 1 := rfl
        omega
    · exact normaliseChildren_text_le cs language _ m hm
theorem normaliseChildren_text_le (cs : List TSNode) (language : Lang)
    (scope : String) :
    ∀ m ∈ allNodesList (normaliseChildren cs language scope),
      m.text.length ≤ 201 := by
  cases cs with
  | nil =>
    intro m hm
    simp [normaliseChildren, allNodesList] at hm
  | cons c cs =>
    intro m hm
    rw [normaliseChildren] at hm
    by_cases hc : c.ttype ∈ STRUCTURAL_TYPES
    · rw [if_pos hc] at hm
      exact normaliseChildren_text_le cs language scope m hm
    · rw [if_neg hc] at hm
      rw [allNodesList] at hm
      rcases List.mem_append.mp hm with hm | hm
      · exact normaliseNode_text_le c language scope m hm
      · exact normaliseChildren_text_le cs language scope m hm
end

/-- C9 (amended): every MetaNode produced by normalisation stores a `text`
of at most 201 characters: the raw source text is kept when at most 200
characters long and otherwise truncated to its first 200 characters plus
one appended ellipsis character. -/
theorem claim_C9_amended (pr : ParseResult) (m : MetaNode)
    (hm : m ∈ (normalise pr).root.allNodes) : m.text.length ≤ 201 :=
  normaliseNode_text_le pr.root pr.language "<module>" m hm

/-- Witness for C9 (amended) at the 201-character input. -/
theorem claim_C9_amended_witness : longMeta.text.length ≤ 201 :=
  claim_C9_amended (mkParseResult longTSNode .python) longMeta
    (List.mem_cons_self _ _)

/-- C7: for an Import node of the tree whose computed simple name — the
last dotted component of `imp.name or imp.text.strip()`, then the
stripped part after `" as "` when present — is non-empty, the
unused-import rule emits a Warning finding for that node if and only if
the simple name appears among neither the used VARIABLE names nor the
CALL base names of the same tree. -/
theorem claim_C7_unused_import_iff (ast : MetaAST) (g : GraphsMap)
    (imp : MetaNode) (hmem : imp ∈ ast.root.findAll .importStmt)
    (hne : simpleImportName imp ≠ "") :
    (∃ f ∈ ruleUnusedImport ast g,
        f.meta_node = some imp ∧ f.severity = .warning) ↔
      simpleImportName imp ∉ usedNames ast := by
  unfold ruleUnusedImport
  constructor
  · rintro ⟨f, hf, hfm, -⟩
    rcases List.mem_filterMap.mp hf with ⟨imp', hmem', heq⟩
    by_cases hcond : ¬ (simpleImportName imp').isEmpty = true ∧
        simpleImportName imp' ∉ usedNames ast
    · rw [if_pos hcond] at heq
      have hfi : f = unusedImportFinding imp' := (Option.some_injective _ heq).symm
      rw [hfi] at hfm
      have himp : imp' = imp := Option.some_injective _ hfm
      rw [himp] at hcond
      exact hcond.2
    · rw [if_neg hcond] at heq
      exact nomatch heq
  · intro hnot
    refine ⟨unusedImportFinding imp, ?_, rfl, rfl⟩
    refine List.mem_filterMap.mpr ⟨imp, hmem, ?_⟩
    rw [if_pos ⟨fun hie => hne ((String.isEmpty_iff _).mp hie), hnot⟩]

/-- Witness for C7 at the concrete `import os` example tree. -/
theorem claim_C7_witness :
    (∃ f ∈ ruleUnusedImport w7Ast {},
        f.meta_node = some w7Imp ∧ f.severity = .warning) ↔
      simpleImportName w7Imp ∉ usedNames w7Ast :=
  claim_C7_unused_import_iff w7Ast {} w7Imp (List.mem_cons_self _ _)
    (by decide)

theorem addNode_goodIds {g : ProgramGraph} (hG : GoodIds g)
    (l : String) (m : Option MetaNode) (ln : Nat) :
    GoodIds (g.addNode l m ln).2 := by
  intro p hp
  rcases List.mem_append.mp hp with hp | hp
  · exact Nat.lt_succ_of_lt (hG p hp)
  · rcases List.mem_singleton.mp hp with rfl
    exact Nat.lt_succ_self _
theorem addNode_getNode_self {g : ProgramGraph} (hG : GoodIds g)
    (l : String) (m : Option MetaNode) (ln : Nat) :
    (g.addNode l m ln).2.getNode g.nextId = some (g.addNode l m ln).1 := by
  unfold ProgramGraph.addNode ProgramGraph.getNode
  rw [List.find?_append]
  have hnone : g.nodes.find? (fun p => decide (p.1 = g.nextId)) = none := by
    rw [List.find?_eq_none]
    intro p hp hdec
    exact absurd (of_decide_eq_true hdec) (Nat.ne_of_lt (hG p hp))
  rw [hnone]
  simp

theorem addNode_getNode_preserved {g : ProgramGraph} (_hG : GoodIds g)
    {i : Nat} {n : GraphNode} (hi : g.getNode i = some n)
    (l : String) (m : Option MetaNode) (ln : Nat) :
    (g.addNode l m ln).2.getNode i = some n := by
  unfold ProgramGraph.getNode at hi ⊢
  rcases hfind : g.nodes.find? (fun p => decide (p.1 = i)) with _ | p
  · rw [hfind] at hi
    exact nomatch hi
  · rw [hfind] at hi
    show ((g.nodes ++ _).find? _).map _ = some n
    rw [List.find?_append, hfind]
    exact hi

theorem addNode_taintCollectOk {g : ProgramGraph} {srcs sks : List GraphNode}
    (h : TaintCollectOk g srcs sks) (l : String) (m : Option MetaNode)
    (ln : Nat) :
    TaintCollectOk (g.addNode l m ln).2 srcs sks := by
  obtain ⟨hG, hs, hk⟩ := h
  refine ⟨addNode_goodIds hG l m ln, ?_, ?_⟩
  · intro n hn
    exact ⟨addNode_getNode_preserved hG (hs n hn).1 l m ln, (hs n hn).2⟩
  · intro n hn
    exact ⟨addNode_getNode_preserved hG (hk n hn).1 l m ln, (hk n hn).2⟩

theorem collectTaint_edges (cs : List MetaNode) (g : ProgramGraph)
    (srcs sks : List GraphNode) :
    (collectTaint cs g srcs sks).1.edges = g.edges := by
  induction cs generalizing g srcs sks with
  | nil => rfl
  | cons c cs ih =>
    rw [collectTaint]
    by_cases h1 : matchesTaint TAINT_SOURCES (c.name.getD "") = true <;>
      by_cases h2 : matchesTaint TAINT_SINKS (c.name.getD "") = true <;>
      simp only [h1, h2, if_true, if_false, Bool.false_eq_true] <;>
      rw [ih] <;> rfl

theorem collectTaint_ok (cs : List MetaNode) (g : ProgramGraph)
    (srcs sks : List GraphNode) (h : TaintCollectOk g srcs sks) :
    TaintCollectOk (collectTaint cs g srcs sks).1
      (collectTaint cs g srcs sks).2.1 (collectTaint cs g srcs sks).2.2 := by
  induction cs generalizing g srcs sks with
  | nil => exact h
  | cons c cs ih =>
    rw [collectTaint]
    by_cases h1 : matchesTaint TAINT_SOURCES (c.name.getD "") = true <;>
      by_cases h2 : matchesTaint TAINT_SINKS (c.name.getD "") = true <;>
      simp only [h1, h2, if_true, if_false, Bool.false_eq_true]
    · -- both source and sink node added
      apply ih
      obtain ⟨hG, hs, hk⟩ := h
      have hG1 := addNode_goodIds hG ("SOURCE: " ++ c.name.getD "") (some c)
        c.line
      refine ⟨addNode_goodIds hG1 _ _ _, ?_, ?_⟩
      · intro n hn
        rcases List.mem_append.mp hn with hn | hn
        · have h' := (addNode_taintCollectOk ⟨hG, hs, hk⟩
            ("SOURCE: " ++ c.name.getD "") (some c) c.line).2.1 n hn
          exact ⟨addNode_getNode_preserved hG1 h'.1 _ _ _, h'.2⟩
        · rcases List.mem_singleton.mp hn with rfl
          refine ⟨addNode_getNode_preserved hG1
            (addNode_getNode_self hG _ _ _) _ _ _, ⟨c.name.getD "", rfl⟩⟩
      · intro n hn
        rcases List.mem_append.mp hn with hn | hn
        · have h' := (addNode_taintCollectOk ⟨hG, hs, hk⟩
            ("SOURCE: " ++ c.name.getD "") (some c) c.line).2.2 n hn
          exact ⟨addNode_getNode_preserved hG1 h'.1 _ _ _, h'.2⟩
        · rcases List.mem_singleton.mp hn with rfl
          exact ⟨addNode_getNode_self hG1 _ _ _, ⟨c.name.getD "", rfl⟩⟩
    · -- only a source node added
      apply ih
      obtain ⟨hG, hs, hk⟩ := h
      refine ⟨addNode_goodIds hG _ _ _, ?_, ?_⟩
      · intro n hn
        rcases List.mem_append.mp hn with hn | hn
        · exact ⟨addNode_getNode_preserved hG (hs n hn).1 _ _ _, (hs n hn).2⟩
        · rcases List.mem_singleton.mp hn with rfl
          exact ⟨addNode_getNode_self hG _ _ _, ⟨c.name.getD "", rfl⟩⟩
      · intro n hn
        exact ⟨addNode_getNode_preserved hG (hk n hn).1 _ _ _, (hk n hn).2⟩
    · -- only a sink node added
      apply ih
      obtain ⟨hG, hs, hk⟩ := h
      refine ⟨addNode_goodIds hG _ _ _, ?_, ?_⟩
      · intro n hn
        exact ⟨addNode_getNode_preserved hG (hs n hn).1 _ _ _, (hs n hn).2⟩
      · intro n hn
        rcases List.mem_append.mp hn with hn | hn
        · exact ⟨addNode_getNode_preserved hG (hk n hn).1 _ _ _, (hk n hn).2⟩
        · rcases List.mem_singleton.mp hn with rfl
          exact ⟨addNode_getNode_self hG _ _ _, ⟨c.name.getD "", rfl⟩⟩
    · exact ih _ _ _ h

theorem taintInnerFold_nodes (g : ProgramGraph) (s : GraphNode)
    (sks : List GraphNode) :
    (sks.foldl (fun g k =>
      if taintEdgeOk s k then g.addEdge s.id k.id "taint_flow" else g)
        g).nodes = g.nodes := by
  induction sks generalizing g with
  | nil => rfl
  | cons k sks ih =>
    rw [List.foldl_cons]
    by_cases hk : taintEdgeOk s k = true <;>
      simp only [hk, if_true, if_false, Bool.false_eq_true] <;> rw [ih]
    rfl

theorem taintOuterFold_nodes (g : ProgramGraph) (srcs sks : List GraphNode) :
    (srcs.foldl (fun g s => sks.foldl (fun g k =>
      if taintEdgeOk s k then g.addEdge s.id k.id "taint_flow" else g) g)
        g).nodes = g.nodes := by
  induction srcs generalizing g with
  | nil => rfl
  | cons s srcs ih =>
    rw [List.foldl_cons, ih, taintInnerFold_nodes]

theorem taintInnerFold_edges (g : ProgramGraph) (s : GraphNode)
    (sks : List GraphNode) :
    ∀ e ∈ (sks.foldl (fun g k =>
        if taintEdgeOk s k then g.addEdge s.id k.id "taint_flow" else g)
          g).edges,
      e ∈ g.edges ∨ ∃ k ∈ sks, taintEdgeOk s k = true ∧
        e = ⟨s.id, k.id, "taint_flow"⟩ := by
  induction sks generalizing g with
  | nil =>
    intro e he
    exact Or.inl he
  | cons k sks ih =>
    intro e he
    rw [List.foldl_cons] at he
    by_cases hk : taintEdgeOk s k = true
    · rw [if_pos hk] at he
      rcases ih _ e he with he' | ⟨k', hk', hok, heq⟩
      · rcases List.mem_append.mp he' with he'' | he''
        · exact Or.inl he''
        · rcases List.mem_singleton.mp he'' with rfl
          exact Or.inr ⟨k, List.mem_cons_self _ _, hk, rfl⟩
      · exact Or.inr ⟨k', List.mem_cons_of_mem _ hk', hok, heq⟩
    · rw [if_neg hk] at he
      rcases ih _ e he with he' | ⟨k', hk', hok, heq⟩
      · exact Or.inl he'
      · exact Or.inr ⟨k', List.mem_cons_of_mem _ hk', hok, heq⟩

theorem taintOuterFold_edges (g : ProgramGraph) (srcs sks : List GraphNode) :
    ∀ e ∈ (srcs.foldl (fun g s => sks.foldl (fun g k =>
        if taintEdgeOk s k then g.addEdge s.id k.id "taint_flow" else g) g)
          g).edges,
      e ∈ g.edges ∨ ∃ s ∈ srcs, ∃ k ∈ sks, taintEdgeOk s k = true ∧
        e = ⟨s.id, k.id, "taint_flow"⟩ := by
  induction srcs generalizing g with
  | nil =>
    intro e he
    exact Or.inl he
  | cons s srcs ih =>
    intro e he
    rw [List.foldl_cons] at he
    rcases ih _ e he with he' | ⟨s', hs', k', hk', hok, heq⟩
    · rcases taintInnerFold_edges g s sks e he' with he'' | ⟨k', hk', hok, heq⟩
      · exact Or.inl he''
      · exact Or.inr ⟨s, List.mem_cons_self _ _, k', hk', hok, heq⟩
    · exact Or.inr ⟨s', List.mem_cons_of_mem _ hs', k', hk', hok, heq⟩

/-- C5: every edge of a taint-flow graph runs from a `SOURCE: `-labeled
node to a `SINK: `-labeled node, the two underlying MetaNodes have equal
scopes, and the source node's line is at most the sink node's line (so no
edge connects different scopes). -/
theorem claim_C5_taint_edge_shape (ast : MetaAST) (e : GraphEdge)
    (he : e ∈ (build_taint_graph ast).edges) :
    ∃ ns nk : GraphNode,
      (build_taint_graph ast).getNode e.src = some ns ∧
      (build_taint_graph ast).getNode e.dst = some nk ∧
      (∃ fn, ns.label = "SOURCE: " ++ fn) ∧
      (∃ fn, nk.label = "SINK: " ++ fn) ∧
      ns.line ≤ nk.line ∧
      (∃ msrc msnk : MetaNode, ns.meta = some msrc ∧ nk.meta = some msnk ∧
        msrc.scope = msnk.scope) := by
  have hok : TaintCollectOk
      (collectTaint ast.allCalls ⟨"tfg", [], [], none, none, 0⟩ [] []).1
      (collectTaint ast.allCalls ⟨"tfg", [], [], none, none, 0⟩ [] []).2.1
      (collectTaint ast.allCalls ⟨"tfg", [], [], none, none, 0⟩ [] []).2.2 :=
    collectTaint_ok _ _ _ _
      ⟨fun p hp => absurd hp (List.not_mem_nil p),
       fun n hn => absurd hn (List.not_mem_nil n),
       fun n hn => absurd hn (List.not_mem_nil n)⟩
  obtain ⟨-, hsrc, hsnk⟩ := hok
  unfold build_taint_graph at he ⊢
  rcases taintOuterFold_edges _ _ _ e he with he' | ⟨s, hs, k, hk, hedge, heq⟩
  · rw [collectTaint_edges] at he'
    exact absurd he' (List.not_mem_nil e)
  · obtain ⟨hgs, fs, hfs⟩ := hsrc s hs
    obtain ⟨hgk, fk, hfk⟩ := hsnk k hk
    rcases hms : s.meta with _ | msrc
    · rw [taintEdgeOk, hms] at hedge
      exact nomatch hedge
    · rcases hmk : k.meta with _ | msnk
      · rw [taintEdgeOk, hms, hmk] at hedge
        exact nomatch hedge
      · rw [taintEdgeOk, hms, hmk, Bool.and_eq_true] at hedge
        refine ⟨s, k, ?_, ?_, ⟨fs, hfs⟩, ⟨fk, hfk⟩,
          of_decide_eq_true hedge.1,
          msrc, msnk, hms, hmk, of_decide_eq_true hedge.2⟩
        · show ProgramGraph.getNode _ e.src = some s
          rw [heq]
          show ProgramGraph.getNode _ s.id = some s
          unfold ProgramGraph.getNode at hgs ⊢
          rw [taintOuterFold_nodes]
          exact hgs
        · show ProgramGraph.getNode _ e.dst = some k
          rw [heq]
          show ProgramGraph.getNode _ k.id = some k
          unfold ProgramGraph.getNode at hgk ⊢
          rw [taintOuterFold_nodes]
          exact hgk

theorem addEdgesFrom_eq : ∀ (prevs : List Nat) (g : ProgramGraph) (dst : Nat),
    addEdgesFrom g prevs dst =
      { g with edges := g.edges ++ prevs.map (fun p => GraphEdge.mk p dst "") }
  | [], g, dst => by
    show g = _
    simp
  | p :: ps, g, dst => by
    show addEdgesFrom (g.addEdge p dst "") ps dst = _
    rw [addEdgesFrom_eq ps]
    simp [ProgramGraph.addEdge]

theorem addBackEdges_eq : ∀ (exits : List Nat) (g : ProgramGraph) (hdr : Nat),
    addBackEdges g exits hdr =
      { g with edges :=
          g.edges ++ exits.map (fun be => GraphEdge.mk be hdr "back") }
  | [], g, hdr => by
    show g = _
    simp
  | be :: bes, g, hdr => by
    show addBackEdges (g.addEdge be hdr "back") bes hdr = _
    rw [addBackEdges_eq bes]
    simp [ProgramGraph.addEdge]

theorem reachAux_visited_subset (g : ProgramGraph) :
    ∀ (fuel : Nat) (q vis : List Nat), ∀ x ∈ vis,
      x ∈ reachAux g fuel q vis := by
  intro fuel
  induction fuel with
  | zero =>
    intro q vis x hx
    exact hx
  | succ fuel ih =>
    intro q vis x hx
    cases q with
    | nil => exact hx
    | cons c q =>
      rw [reachAux]
      by_cases hc : c ∈ vis
      · rw [if_pos hc]
        exact ih _ _ x hx
      · rw [if_neg hc]
        exact ih _ _ x (List.mem_append_left _ hx)

theorem reachAux_queue_mem (g : ProgramGraph) :
    ∀ (q1 : List Nat) (fuel : Nat) (x : Nat) (q2 vis : List Nat),
      q1.length < fuel → x ∈ reachAux g fuel (q1 ++ x :: q2) vis := by
  intro q1
  induction q1 with
  | nil =>
    intro fuel x q2 vis hf
    cases fuel with
    | zero => exact absurd hf (Nat.not_lt_zero _)
    | succ fuel =>
      rw [List.nil_append, reachAux]
      by_cases hx : x ∈ vis
      · rw [if_pos hx]
        exact reachAux_visited_subset g _ _ _ x hx
      · rw [if_neg hx]
        exact reachAux_visited_subset g _ _ _ x
          (List.mem_append_right _ (List.mem_singleton_self x))
  | cons c q1 ih =>
    intro fuel x q2 vis hf
    cases fuel with
    | zero => exact absurd hf (Nat.not_lt_zero _)
    | succ fuel =>
      rw [List.cons_append, reachAux]
      have hf' : q1.length < fuel := by
        rw [List.length_cons] at hf
        omega
      by_cases hc : c ∈ vis
      · rw [if_pos hc]
        exact ih fuel x q2 vis hf'
      · rw [if_neg hc]
        rw [List.append_assoc, List.cons_append]
        exact ih fuel x (q2 ++ g.successors c) (vis ++ [c]) hf'

theorem ne_nil_of_prefix {l l' : List GraphEdge} (h : l <+: l')
    (hne : l ≠ []) : l' ≠ [] :=
  fun hE => hne (List.prefix_nil.mp (hE ▸ h))

theorem cfgStep_node_edges {g : ProgramGraph} {prev : List Nat}
    (h : CfgQ g prev) (l : String) (m : Option MetaNode) (ln : Nat) :
    CfgP (addEdgesFrom (g.addNode l m ln).2 prev g.nextId) ∧
    (addEdgesFrom (g.addNode l m ln).2 prev g.nextId).edges ≠ [] ∧
    g.edges <+: (addEdgesFrom (g.addNode l m ln).2 prev g.nextId).edges ∧
    (addEdgesFrom (g.addNode l m ln).2 prev g.nextId).entry = g.entry := by
  obtain ⟨⟨hnx, hdst, hsrc⟩, hprev, hfirst⟩ := h
  rw [addEdgesFrom_eq]
  simp only [ProgramGraph.addNode]
  refine ⟨⟨Nat.le_succ_of_le hnx, ?_, ?_⟩, ?_, List.prefix_append _ _, trivial⟩
  · intro e he
    rcases List.mem_append.mp he with he | he
    · exact hdst e he
    · rcases List.mem_map.mp he with ⟨p, _, hpe⟩
      rw [← hpe]
      exact hnx
  · intro _
    by_cases hE : g.edges = []
    · have hp0 := hfirst hE
      rw [hE, hp0]
      exact ⟨⟨0, g.nextId, ""⟩, by simp, rfl⟩
    · obtain ⟨e0, he0, hs0⟩ := hsrc hE
      exact ⟨e0, List.mem_append_left _ he0, hs0⟩
  · intro hE
    rcases List.append_eq_nil.mp hE with ⟨_, hmap⟩
    exact hprev (List.map_eq_nil_iff.mp hmap)

mutual
theorem cfgVisit_q : ∀ (n : MetaNode) (g : ProgramGraph) (prev : List Nat),
    CfgQ g prev →
    CfgQ (cfgVisit n g prev).2 (cfgVisit n g prev).1 ∧
    g.edges <+: (cfgVisit n g prev).2.edges ∧
    (cfgVisit n g prev).2.entry = g.entry
  | .mk k nm tx ln el col cs sc ia ep, g, prev, h => by
    by_cases hstmt : k ∈ STATEMENT_KINDS
    · simp only [cfgVisit, if_pos hstmt]
      obtain ⟨hP, hne, hpre, hent⟩ := cfgStep_node_edges h
        (k.value ++ ": " ++ orElse nm (pyTake tx 40))
        (some (.mk k nm tx ln el col cs sc ia ep)) ln
      exact ⟨⟨hP, by simp, fun hE => absurd hE hne⟩, hpre, hent⟩
    · by_cases hcond : k = .conditional
      · simp only [cfgVisit, if_neg hstmt, if_pos hcond]
        obtain ⟨hP1, hne1, hpre1, hent1⟩ := cfgStep_node_edges h "IF"
          (some (.mk k nm tx ln el col cs sc ia ep)) ln
        obtain ⟨hP2, hne2, hpre2, hent2, hexits⟩ := cfgBranches_q cs _ _ hP1 hne1
        refine ⟨⟨hP2, ?_, fun hE => absurd hE hne2⟩,
          hpre1.trans hpre2, hent2.trans hent1⟩
        by_cases hcb : countBlocks cs < 2
        · rw [if_pos hcb]
          simp
        · rw [if_neg hcb]
          exact hexits (by omega)
      · by_cases hloop : k = .loop
        · simp only [cfgVisit, if_neg hstmt, if_neg hcond, if_pos hloop]
          obtain ⟨hP1, hne1, hpre1, hent1⟩ := cfgStep_node_edges h "LOOP"
            (some (.mk k nm tx ln el col cs sc ia ep)) ln
          obtain ⟨⟨hPb, hprevb, _⟩, hpreb, hentb⟩ := cfgBlocksFold_q cs _
            [g.nextId] ⟨hP1, by simp, fun hE => absurd hE hne1⟩
          have hneb := ne_nil_of_prefix hpreb hne1
          rw [addBackEdges_eq]
          refine ⟨⟨⟨hPb.1, ?_, ?_⟩, by simp, ?_⟩, ?_, hentb.trans hent1⟩
          · intro e he
            rcases List.mem_append.mp he with he | he
            · exact hPb.2.1 e he
            · rcases List.mem_map.mp he with ⟨p, _, hpe⟩
              rw [← hpe]
              exact h.1.1
          · intro _
            obtain ⟨e0, he0, hs0⟩ := hPb.2.2 hneb
            exact ⟨e0, List.mem_append_left _ he0, hs0⟩
          · intro hE
            rcases List.append_eq_nil.mp hE with ⟨hE1, _⟩
            exact absurd hE1 hneb
          · exact hpre1.trans (hpreb.trans (List.prefix_append _ _))
        · by_cases hfun : k = .functionDef
          · simp only [cfgVisit, if_neg hstmt, if_neg hcond, if_neg hloop,
              if_pos hfun]
            obtain ⟨hP1, hne1, hpre1, hent1⟩ := cfgStep_node_edges h
              ("FUNC: " ++ orElse nm "?")
              (some (.mk k nm tx ln el col cs sc ia ep)) ln
            obtain ⟨hQb, hpreb, hentb⟩ := cfgBlocksFold_q cs _ [g.nextId]
              ⟨hP1, by simp, fun hE => absurd hE hne1⟩
            exact ⟨hQb, hpre1.trans hpreb, hentb.trans hent1⟩
          · simp only [cfgVisit, if_neg hstmt, if_neg hcond, if_neg hloop,
              if_neg hfun]
            exact cfgVisitSeq_q cs g prev h
theorem cfgVisitSeq_q : ∀ (cs : List MetaNode) (g : ProgramGraph)
    (prev : List Nat), CfgQ g prev →
    CfgQ (cfgVisitSeq cs g prev).2 (cfgVisitSeq cs g prev).1 ∧
    g.edges <+: (cfgVisitSeq cs g prev).2.edges ∧
    (cfgVisitSeq cs g prev).2.entry = g.entry
  | [], _, _, h => ⟨h, List.prefix_rfl, rfl⟩
  | c :: cs, g, prev, h => by
    simp only [cfgVisitSeq]
    obtain ⟨h1, hpre1, hent1⟩ := cfgVisit_q c g prev h
    obtain ⟨h2, hpre2, hent2⟩ := cfgVisitSeq_q cs _ _ h1
    exact ⟨h2, hpre1.trans hpre2, hent2.trans hent1⟩
theorem cfgBranches_q : ∀ (cs : List MetaNode) (g : ProgramGraph)
    (condId : Nat), CfgP g → g.edges ≠ [] →
    CfgP (cfgBranches cs g condId).2 ∧
    (cfgBranches cs g condId).2.edges ≠ [] ∧
    g.edges <+: (cfgBranches cs g condId).2.edges ∧
    (cfgBranches cs g condId).2.entry = g.entry ∧
    (1 ≤ countBlocks cs → (cfgBranches cs g condId).1 ≠ [])
  | [], g, _, hP, hne =>
    ⟨hP, hne, List.prefix_rfl, rfl, fun hc => absurd hc (by decide)⟩
  | (.mk k nm tx ln el col ccs sc ia ep) :: cs, g, condId, hP, hne => by
    by_cases hk : k = .block
    · simp only [cfgBranches, if_pos hk]
      obtain ⟨⟨hPr, hfr, _⟩, hprer, hentr⟩ := cfgVisitSeq_q ccs g [condId]
        ⟨hP, by simp, fun hE => absurd hE hne⟩
      have hner := ne_nil_of_prefix hprer hne
      obtain ⟨hP2, hne2, hpre2, hent2, _⟩ := cfgBranches_q cs _ condId hPr hner
      refine ⟨hP2, hne2, hprer.trans hpre2, hent2.trans hentr, fun _ => ?_⟩
      intro hE
      rcases List.append_eq_nil.mp hE with ⟨hE1, _⟩
      exact hfr hE1
    · simp only [cfgBranches, if_neg hk]
      have hcb : countBlocks ((MetaNode.mk k nm tx ln el col ccs sc ia ep)
          :: cs) = countBlocks cs := by
        simp only [countBlocks, List.filter]
        rw [show (MetaNode.mk k nm tx ln el col ccs sc ia ep).kind = k from rfl]
        simp [hk]
      obtain ⟨hP2, hne2, hpre2, hent2, hex2⟩ := cfgBranches_q cs g condId hP hne
      exact ⟨hP2, hne2, hpre2, hent2, fun hc => hex2 (hcb ▸ hc)⟩
theorem cfgBlocksFold_q : ∀ (cs : List MetaNode) (g : ProgramGraph)
    (current : List Nat), CfgQ g current →
    CfgQ (cfgBlocksFold cs g current).2 (cfgBlocksFold cs g current).1 ∧
    g.edges <+: (cfgBlocksFold cs g current).2.edges ∧
    (cfgBlocksFold cs g current).2.entry = g.entry
  | [], _, _, h => ⟨h, List.prefix_rfl, rfl⟩
  | (.mk k nm tx ln el col ccs sc ia ep) :: cs, g, current, h => by
    by_cases hk : k = .block
    · simp only [cfgBlocksFold, if_pos hk]
      obtain ⟨h1, hpre1, hent1⟩ := cfgVisitSeq_q ccs g current h
      obtain ⟨h2, hpre2, hent2⟩ := cfgBlocksFold_q cs _ _ h1
      exact ⟨h2, hpre1.trans hpre2, hent2.trans hent1⟩
    · simp only [cfgBlocksFold, if_neg hk]
      exact cfgBlocksFold_q cs g current h
end

theorem exit_edge_mem (g2 : ProgramGraph) (exitId : Nat)
    (hdst : ∀ e ∈ g2.edges, 1 ≤ e.dst)
    (hsrc : g2.edges ≠ [] → ∃ e ∈ g2.edges, e.src = 0) :
    GraphEdge.mk 0 exitId "" ∈ (addEdgesFrom g2
      (if ((g2.edges.map (·.src)).dedup.filter
            (fun s => decide (s ∉ g2.edges.map (·.dst)))).isEmpty = true
        then [0]
        else (g2.edges.map (·.src)).dedup.filter
            (fun s => decide (s ∉ g2.edges.map (·.dst)))) exitId).edges := by
  by_cases hE : g2.edges = []
  · simp [hE, addEdgesFrom_eq]
  · obtain ⟨e0, he0, hs0⟩ := hsrc hE
    have h0f : (0 : Nat) ∈ (g2.edges.map (·.src)).dedup.filter
        (fun s => decide (s ∉ g2.edges.map (·.dst))) := by
      refine List.mem_filter.mpr ⟨List.mem_dedup.mpr
        (List.mem_map.mpr ⟨e0, he0, hs0⟩), decide_eq_true ?_⟩
      intro hm
      rcases List.mem_map.mp hm with ⟨e', he', h0⟩
      have := hdst e' he'
      omega
    have hni : ¬ (((g2.edges.map (·.src)).dedup.filter
        (fun s => decide (s ∉ g2.edges.map (·.dst)))).isEmpty = true) := by
      intro hie
      rw [List.isEmpty_iff] at hie
      rw [hie] at h0f
      exact absurd h0f (List.not_mem_nil 0)
    rw [if_neg hni, addEdgesFrom_eq]
    exact List.mem_append_right _ (List.mem_map.mpr ⟨0, h0f, rfl⟩)

theorem build_cfg_spec (ast : MetaAST) :
    (build_cfg ast).entry = some 0 ∧
    ∃ ex, (build_cfg ast).exit = some ex ∧
      GraphEdge.mk 0 ex "" ∈ (build_cfg ast).edges := by
  obtain ⟨⟨⟨_, hdst, hsrc⟩, _, _⟩, _, hent⟩ := cfgVisit_q ast.root
    { kind := "cfg", nodes := [(0, ⟨0, "ENTRY", none, 0⟩)], edges := [],
      entry := some 0, exit := none, nextId := 1 } [0]
    ⟨⟨le_refl 1, fun e he => absurd he (List.not_mem_nil e),
      fun hne => absurd rfl hne⟩, by simp, fun _ => rfl⟩
  refine ⟨?_, ?_⟩
  · show (build_cfg ast).entry = some 0
    simp only [build_cfg]
    rw [addEdgesFrom_eq]
    exact hent
  · refine ⟨(cfgVisit ast.root
      { kind := "cfg", nodes := [(0, ⟨0, "ENTRY", none, 0⟩)], edges := [],
        entry := some 0, exit := none, nextId := 1 } [0]).2.nextId, ?_, ?_⟩
    · simp only [build_cfg]
      rw [addEdgesFrom_eq]
      rfl
    · simp only [build_cfg]
      exact exit_edge_mem _ _ hdst hsrc

/-- C4: the EXIT node of every CFG built by `build_cfg` is reachable from
the ENTRY node by following directed edges (in fact via the direct
ENTRY → EXIT leaf edge, since no edge ever targets ENTRY). -/
theorem claim_C4_exit_reachable (ast : MetaAST) :
    ∃ en ex, (build_cfg ast).entry = some en ∧
      (build_cfg ast).exit = some ex ∧
      ex ∈ (build_cfg ast).reachableFrom en := by
  obtain ⟨hent, ex, hexit, hedge⟩ := build_cfg_spec ast
  refine ⟨0, ex, hent, hexit, ?_⟩
  have hsucc : ex ∈ (build_cfg ast).successors 0 := by
    unfold ProgramGraph.successors
    exact List.mem_map.mpr
      ⟨⟨0, ex, ""⟩, List.mem_filter.mpr ⟨hedge, by simp⟩, rfl⟩
  obtain ⟨q1, q2, hq⟩ := List.append_of_mem hsucc
  have h1 : q1.length < ((build_cfg ast).successors 0).length := by
    rw [hq]
    simp only [List.length_append, List.length_cons]
    omega
  have h2 : ((build_cfg ast).successors 0).length ≤
      (build_cfg ast).edges.length := by
    unfold ProgramGraph.successors
    rw [List.length_map]
    exact List.length_filter_le _ _
  have h3 : (build_cfg ast).edges.length + 1 ≤
      ((build_cfg ast).edges.length + 1) *
        ((build_cfg ast).edges.length + 1) :=
    Nat.le_mul_of_pos_left _ (Nat.succ_pos _)
  show ex ∈ reachAux (build_cfg ast)
    (((build_cfg ast).edges.length + 1) * ((build_cfg ast).edges.length + 1)
      + (build_cfg ast).nodes.length + 2) [0] []
  rw [show ((build_cfg ast).edges.length + 1) *
      ((build_cfg ast).edges.length + 1) + (build_cfg ast).nodes.length + 2 =
      (((build_cfg ast).edges.length + 1) *
        ((build_cfg ast).edges.length + 1) +
          (build_cfg ast).nodes.length + 1) + 1 from rfl]
  rw [reachAux, if_neg (List.not_mem_nil 0), List.nil_append, List.nil_append]
  rw [hq]
  exact reachAux_queue_mem _ q1 _ ex q2 [0] (by omega)

/-- Witness for C5 at Scenario B's taint edge. -/
theorem claim_C5_witness :
    ∃ ns nk : GraphNode,
      (build_taint_graph scenBAst).getNode w5Edge.src = some ns ∧
      (build_taint_graph scenBAst).getNode w5Edge.dst = some nk ∧
      (∃ fn, ns.label = "SOURCE: " ++ fn) ∧
      (∃ fn, nk.label = "SINK: " ++ fn) ∧
      ns.line ≤ nk.line ∧
      (∃ msrc msnk : MetaNode, ns.meta = some msrc ∧ nk.meta = some msnk ∧
        msrc.scope = msnk.scope) :=
  claim_C5_taint_edge_shape scenBAst w5Edge (List.mem_cons_self _ _)

end CodeShield
